import Mathlib

/- Shallow embedding of src/BFS.py: the Vertex / Edge / Graph data model and
   the template-method breadth-first-search driver (class BFSTemplate).

   Modelling conventions.
   * Vertex elements are natural numbers.  Python's `Vertex` hashes and
     compares by its wrapped element (`Vertex.__eq__`, lines 21-22), and
     `Graph.insert_vertex` deduplicates by element, so a vertex is
     represented here by its element.
   * `Edge` keeps the ordered endpoint pair `(src, dst)` exactly as Python
     stores it in `Edge.endpoints`, plus an insertion index `eid` that
     models Python object identity: two parallel `Edge` objects created by
     two `insert_edge` calls are distinct objects yet value-equal.
   * Python's `Edge.__eq__` / `__hash__` (lines 32-37) work on
     `frozenset(self.endpoints)`; for naturals the unordered pair {a, b} is
     represented canonically by `(min a b, max a b)` (`ekey` below), and
     `pyEq` spells out frozenset equality itself.
   * `Graph.vertices_map` iterates in insertion order, so it is a list
     `verts`; `adjacency_map` is an association list `adj` in insertion
     order, looked up with the `.get(v, [])` behaviour (`adjGet`).
   * The label dictionaries `vertex_labels` / `edge_labels` of BFSTemplate
     are keyed by vertex value resp. edge value, so they are modelled as
     total functions from vertex elements resp. canonical edge keys.  (The
     `defaultdict()` fields have no default factory and raise on a missing
     key, but `bfs` initialises every key it ever reads, so total functions
     model every executed path exactly.)
   * Besides the two label stores the embedded state carries logs of the
     observable hook invocations of the driver (spec section 4.3):
     `pops` records `pre_vertex_visit` (one entry per dequeued vertex, in
     dequeue order), `pushes` records every enqueue (the seed enqueued by
     `_bfs_component` plus each vertex enqueued in the discovery branch, in
     enqueue order), `events` records `pre_disc_edge_visit` /
     `cross_edge_visit` together with the scanned neighbour `w` and the
     label assigned, and `seeds` records `pre_component_visit`.
     The remaining hooks of BFSTemplate are no-ops (`pass`), and
     `init_result` / `result` only reformat the label stores, so nothing
     else is observable.
-/

namespace BFS

/-- Vertex labels, constants UNEXPLORED / VISITED of src/BFS.py. -/
inductive VLabel where
  | unexplored
  | visited
deriving DecidableEq

/-- Edge labels, constants UNEXPLORED / DISCOVERY / CROSS of src/BFS.py. -/
inductive ELabel where
  | unexplored
  | discovery
  | cross
deriving DecidableEq

/-- An `Edge` object (src/BFS.py class Edge): the ordered endpoint pair as
passed to the constructor, plus the creation index `eid` standing for
Python object identity. -/
structure Edge where
  eid : Nat
  src : Nat
  dst : Nat
deriving DecidableEq

/-- The canonical key of an edge value: `frozenset(self.endpoints)` of
`Edge.__hash__` / `__eq__`, i.e. the unordered pair of the endpoints,
represented as (min, max). -/
def ekey (e : Edge) : Nat × Nat := (min e.src e.dst, max e.src e.dst)

/-- Python `Edge.__eq__`: `frozenset(self.endpoints) == frozenset(other.endpoints)`,
spelled out for two-element sets. -/
def pyEq (e1 e2 : Edge) : Prop :=
  (e1.src = e2.src ∧ e1.dst = e2.dst) ∨ (e1.src = e2.dst ∧ e1.dst = e2.src)

/-- src/BFS.py class Graph: `vertices_map` keys in insertion order,
`adjacency_map` as an association list in insertion order, and the next
object-identity index for edges. -/
structure Graph where
  verts : List Nat
  adj : List (Nat × List Edge)
  nextEid : Nat
deriving DecidableEq

/-- `Graph.__init__`: empty maps. -/
def emptyGraph : Graph := ⟨[], [], 0⟩

/-- Dictionary lookup on an association list, first match. -/
def aget : List (Nat × List Edge) → Nat → List Edge
  | [], _ => []
  | p :: ps, v => if p.1 = v then p.2 else aget ps v

/-- `Graph.incident_edges`: `self.adjacency_map.get(v, [])`. -/
def adjGet (g : Graph) (v : Nat) : List Edge := aget g.adj v

/-- All `Edge` objects held in adjacency lists (each object appears once per
incident-list occurrence), i.e. the concatenation of
`self.adjacency_map.values()` that `Graph.edges` iterates over. -/
def edgeObjects (g : Graph) : List Edge := (g.adj.map Prod.snd).flatten

/-- `self.adjacency_map[v].append(edge)`: append an edge to the incident
list stored under key `v`. -/
def adjApp (al : List (Nat × List Edge)) (v : Nat) (e : Edge) :
    List (Nat × List Edge) :=
  al.map (fun p => if p.1 = v then (p.1, p.2 ++ [e]) else p)

/-- `Graph.insert_vertex` (src/BFS.py lines 68-75): idempotent insertion;
a fresh element gets an empty incident list. -/
def insertVertex (g : Graph) (x : Nat) : Graph :=
  if x ∈ g.verts then g
  else { g with verts := g.verts ++ [x], adj := g.adj ++ [(x, [])] }

/-- `Graph.insert_edge` (src/BFS.py lines 77-84): ensure both endpoints
exist, create a new Edge object, append it to both adjacency lists.  (The
Python method also returns the new edge; the new object is `⟨g2.nextEid, a, b⟩`.) -/
def insertEdge (g : Graph) (a b : Nat) : Graph :=
  let g1 := insertVertex g a
  let g2 := insertVertex g1 b
  let e : Edge := ⟨g2.nextEid, a, b⟩
  { g2 with adj := adjApp (adjApp g2.adj a e) b e, nextEid := g2.nextEid + 1 }

/-- Deduplication of a list of edge objects by their Python value
(`frozenset` key), keeping the first representative: the contents of the
set built by `Graph.edges`. -/
def dedupByKey : List Edge → List (Nat × Nat) → List Edge
  | [], _ => []
  | e :: es, seen =>
    if ekey e ∈ seen then dedupByKey es seen
    else e :: dedupByKey es (ekey e :: seen)

/-- `Graph.edges` (src/BFS.py lines 52-58): the set of edge values found in
the adjacency lists. -/
def edges (g : Graph) : List Edge := dedupByKey (edgeObjects g) []

/-- `Graph.opposite` (src/BFS.py lines 86-89):
`v1, v2 = e.endpoints; return v2 if v1 == v else v1`. -/
def opposite (v : Nat) (e : Edge) : Nat := if e.src = v then e.dst else e.src

/-- Graph-building operations of the public interface. -/
inductive GOp where
  | addV (x : Nat)
  | addE (a b : Nat)

/-- Apply one `insert_vertex` / `insert_edge` call. -/
def applyOp (g : Graph) : GOp → Graph
  | GOp.addV x => insertVertex g x
  | GOp.addE a b => insertEdge g a b

/-- A graph built from a sequence of public insertion calls. -/
def applyOps (ops : List GOp) : Graph := ops.foldl applyOp emptyGraph

/-- `k` parallel insertions between the two elements `a` and `b`; `true`
stands for `insert_edge(a, b)`, `false` for `insert_edge(b, a)`. -/
def buildPar (a b : Nat) (ops : List Bool) : Graph :=
  ops.foldl (fun g o => if o then insertEdge g a b else insertEdge g b a)
    emptyGraph

/-- Pointwise update of a vertex-label store (a dict assignment). -/
def updV (f : Nat → VLabel) (x : Nat) (l : VLabel) : Nat → VLabel :=
  fun y => if y = x then l else f y

/-- Pointwise update of an edge-label store (a dict assignment). -/
def updE (f : Nat × Nat → ELabel) (k : Nat × Nat) (l : ELabel) :
    Nat × Nat → ELabel :=
  fun k2 => if k2 = k then l else f k2

/-- One observable edge-classification event: the scanned neighbour `w`
passed to the hook, the edge value `k` and the label assigned. -/
structure Event where
  w : Nat
  k : Nat × Nat
  lab : ELabel
deriving DecidableEq

/-- The state of one `bfs()` run: the two label stores of the driver, the
traversal queue of `_bfs_component`, and the hook-observation logs. -/
structure BFSState where
  vertex_labels : Nat → VLabel
  edge_labels : Nat × Nat → ELabel
  queue : List Nat
  pops : List Nat
  pushes : List Nat
  events : List Event
  seeds : List Nat

/-- The discovery branch of `_bfs_component` (src/BFS.py lines 158-163):
label the edge DISCOVERY, label `w` VISITED, enqueue `w`. -/
def discStep (s : BFSState) (w : Nat) (k : Nat × Nat) : BFSState :=
  { s with
    edge_labels := updE s.edge_labels k ELabel.discovery,
    vertex_labels := updV s.vertex_labels w VLabel.visited,
    queue := s.queue ++ [w],
    pushes := s.pushes ++ [w],
    events := s.events ++ [⟨w, k, ELabel.discovery⟩] }

/-- The cross branch of `_bfs_component` (src/BFS.py lines 164-166):
label the edge CROSS. -/
def crossStep (s : BFSState) (w : Nat) (k : Nat × Nat) : BFSState :=
  { s with
    edge_labels := updE s.edge_labels k ELabel.cross,
    events := s.events ++ [⟨w, k, ELabel.cross⟩] }

/-- The body of the inner `for e in self.graph.incident_edges(v)` loop of
`_bfs_component` (src/BFS.py lines 154-166). -/
def scanEdge (v : Nat) (s : BFSState) (e : Edge) : BFSState :=
  if s.vertex_labels (opposite v e) = VLabel.unexplored then
    discStep s (opposite v e) (ekey e)
  else if s.edge_labels (ekey e) = ELabel.unexplored then
    crossStep s (opposite v e) (ekey e)
  else s

/-- The `while q:` loop of `_bfs_component` (src/BFS.py lines 150-168),
with an explicit fuel argument for structural termination; `bfsLoop` is
always called with enough fuel to drain the queue (theorem `bfsLoop_drain`
below). -/
def bfsLoop (g : Graph) : Nat → BFSState → BFSState
  | 0, s => s
  | fuel + 1, s =>
    match s.queue with
    | [] => s
    | v :: rest =>
      bfsLoop g fuel
        ((adjGet g v).foldl (scanEdge v)
          { s with queue := rest, pops := s.pops ++ [v] })

/-- All endpoint occurrences of all edge objects of the graph: an
enumerable superset of every vertex the loop can ever enqueue. -/
def epts (g : Graph) : List Nat :=
  (edgeObjects g).map Edge.src ++ (edgeObjects g).map Edge.dst

/-- Fuel passed to `bfsLoop`: one more than the number of endpoint
occurrences, an upper bound on the number of dequeues of one component
traversal. -/
def compFuel (g : Graph) : Nat := (epts g).length + 1

/-- The number of still-unexplored potential enqueue targets: the measure
showing `compFuel` suffices. -/
def Ucount (g : Graph) (s : BFSState) : Nat :=
  (epts g).dedup.countP (fun x => decide (s.vertex_labels x = VLabel.unexplored))

/-- `BFSTemplate._bfs_component` (src/BFS.py lines 144-170): label the seed
VISITED, start the queue with it, and drain the queue.  (The caller `bfs`
has already logged the `pre_component_visit` hook into `seeds`.) -/
def bfsComponent (g : Graph) (s : BFSState) (x : Nat) : BFSState :=
  bfsLoop g (compFuel g)
    { s with
      vertex_labels := updV s.vertex_labels x VLabel.visited,
      queue := [x],
      pushes := s.pushes ++ [x] }

/-- The first initialisation loop of `bfs` (src/BFS.py lines 133-134):
every vertex of the graph is labelled UNEXPLORED. -/
def initV (g : Graph) (f : Nat → VLabel) : Nat → VLabel :=
  g.verts.foldl (fun h v => updV h v VLabel.unexplored) f

/-- The second initialisation loop of `bfs` (src/BFS.py lines 135-136):
every edge value of `self.graph.edges()` is labelled UNEXPLORED. -/
def initE (g : Graph) (f : Nat × Nat → ELabel) : Nat × Nat → ELabel :=
  (edges g).foldl (fun h e => updE h (ekey e) ELabel.unexplored) f

/-- `BFSTemplate.bfs` (src/BFS.py lines 130-142): reinitialise both label
stores, then start a component traversal from every vertex that is still
UNEXPLORED, in graph iteration order.  `vl` / `el` are the contents the
driver's label dictionaries have when the call starts (empty for a fresh
driver, the previous run's labels for a reused one). -/
def bfsRun (g : Graph) (vl : Nat → VLabel) (el : Nat × Nat → ELabel) :
    BFSState :=
  g.verts.foldl
    (fun s v =>
      if s.vertex_labels v = VLabel.unexplored
      then bfsComponent g { s with seeds := s.seeds ++ [v] } v
      else s)
    { vertex_labels := initV g vl, edge_labels := initE g el,
      queue := [], pops := [], pushes := [], events := [], seeds := [] }

/-- Well-formedness of a graph value: the structural invariants that every
graph built through `insert_vertex` / `insert_edge` satisfies (theorem
`applyOps_WF` below proves this). -/
def WF (g : Graph) : Prop :=
  g.adj.map Prod.fst = g.verts ∧
  g.verts.Nodup ∧
  (∀ e ∈ edgeObjects g, e.src ∈ g.verts ∧ e.dst ∈ g.verts) ∧
  (∀ p ∈ g.adj, ∀ e ∈ p.2, e.src = p.1 ∨ e.dst = p.1) ∧
  (∀ e ∈ edgeObjects g, e ∈ adjGet g e.src ∧ e ∈ adjGet g e.dst)

instance : DecidablePred WF := fun _ => by unfold WF; infer_instance

/-- The full construction invariant of graphs built through the public
interface: well-formedness plus bookkeeping about edge object identities
(`eid` below the allocation counter, exact incidence multiplicities). -/
def GraphInv (g : Graph) : Prop :=
  g.adj.map Prod.fst = g.verts ∧
  g.verts.Nodup ∧
  (∀ p ∈ g.adj, ∀ e ∈ p.2,
    (e.src = p.1 ∨ e.dst = p.1) ∧ e.src ∈ g.verts ∧ e.dst ∈ g.verts ∧
    e.eid < g.nextEid) ∧
  (∀ e ∈ edgeObjects g, ∀ u, (adjGet g u).count e =
    (if u = e.src then 1 else 0) + (if u = e.dst then 1 else 0))

/-- Two vertices are adjacent when some edge object of the graph has them
as its two endpoints. -/
def adjRel (g : Graph) (x y : Nat) : Prop :=
  ∃ e ∈ edgeObjects g, (e.src = x ∧ e.dst = y) ∨ (e.src = y ∧ e.dst = x)

/-- Reachability: the reflexive-transitive closure of adjacency.  The
connected component of `u` is the set of vertices reachable from `u`. -/
def Reach (g : Graph) : Nat → Nat → Prop := Relation.ReflTransGen (adjRel g)

/-- `K` is the connected component of the vertex `u`: a duplicate-free
list holding exactly the graph vertices reachable from `u`. -/
def IsComponent (g : Graph) (u : Nat) (K : List Nat) : Prop :=
  K.Nodup ∧ ∀ y, y ∈ K ↔ (y ∈ g.verts ∧ Reach g u y)

/-- All-UNEXPLORED vertex store: the observable contents of the
`vertex_labels` dict of a freshly constructed driver. -/
def vl0 : Nat → VLabel := fun _ => VLabel.unexplored

/-- All-UNEXPLORED edge store: the observable contents of the
`edge_labels` dict of a freshly constructed driver. -/
def el0 : Nat × Nat → ELabel := fun _ => ELabel.unexplored

/-- Concrete graph with the single edge 1-2. -/
def g12 : Graph := insertEdge emptyGraph 1 2

/-- Concrete path graph 1-2-3-4 of spec Scenario B. -/
def gPath : Graph := insertEdge (insertEdge (insertEdge emptyGraph 1 2) 2 3) 3 4

/-- Concrete graph with a self-loop on vertex 5 (spec Scenario C). -/
def gLoop : Graph := insertEdge emptyGraph 5 5

/-- Monotone-progress relation between two states of one run: the logs only
grow at the back, `pops` and `seeds` are untouched inside an edge scan,
a VISITED vertex stays VISITED, and a classified edge keeps its label. -/
def MonoRun (s t : BFSState) : Prop :=
  (∃ l, t.pops = s.pops ++ l) ∧
  (∃ l, t.seeds = s.seeds ++ l) ∧
  (∃ l, t.pushes = s.pushes ++ l) ∧
  (∃ l, t.events = s.events ++ l) ∧
  (∀ x, s.vertex_labels x = VLabel.visited → t.vertex_labels x = VLabel.visited) ∧
  (∀ k, s.edge_labels k ≠ ELabel.unexplored → t.edge_labels k = s.edge_labels k)

/-- Every dequeued vertex has had its whole incident list scanned, so all
its incident edges are classified. -/
def PopsScanned (g : Graph) (s : BFSState) : Prop :=
  ∀ x ∈ s.pops, ∀ e ∈ adjGet g x, s.edge_labels (ekey e) ≠ ELabel.unexplored

/-- Every VISITED graph vertex either still waits in the queue or has all
its neighbours VISITED: the classical frontier invariant of BFS. -/
def Closed (g : Graph) (s : BFSState) : Prop :=
  ∀ x ∈ g.verts, s.vertex_labels x = VLabel.visited →
    x ∈ s.queue ∨ ∀ y, adjRel g x y → s.vertex_labels y = VLabel.visited

/-- The state invariant preserved by every single edge scan of the
traversal (for a well-formed graph `g`). -/
structure Inv (g : Graph) (s : BFSState) : Prop where
  push_split : s.pushes = s.pops ++ s.queue
  queue_vis : ∀ x ∈ s.queue, s.vertex_labels x = VLabel.visited
  pops_vis : ∀ x ∈ s.pops, s.vertex_labels x = VLabel.visited
  pushes_nodup : s.pushes.Nodup
  pushes_verts : ∀ x ∈ s.pushes, x ∈ g.verts
  vis_pushed : ∀ x ∈ g.verts, s.vertex_labels x = VLabel.visited → x ∈ s.pushes
  lab_vis : ∀ e ∈ edgeObjects g, s.edge_labels (ekey e) ≠ ELabel.unexplored →
    s.vertex_labels e.src = VLabel.visited ∧ s.vertex_labels e.dst = VLabel.visited
  ev_match : ∀ ev ∈ s.events, s.edge_labels ev.k = ev.lab
  ev_lab : ∀ ev ∈ s.events, ev.lab ≠ ELabel.unexplored
  ev_nodup : (s.events.map Event.k).Nodup
  ev_key : ∀ ev ∈ s.events, ∃ e ∈ edgeObjects g, ekey e = ev.k
  ev_w : ∀ ev ∈ s.events, ev.w = ev.k.1 ∨ ev.w = ev.k.2
  ev_disc_proper : ∀ ev ∈ s.events, ev.lab = ELabel.discovery → ev.k.1 ≠ ev.k.2
  lab_ev : ∀ e ∈ edgeObjects g, s.edge_labels (ekey e) ≠ ELabel.unexplored →
    ∃ ev ∈ s.events, ev.k = ekey e ∧ ev.lab = s.edge_labels (ekey e)
  push_perm : s.pushes.Perm
    (s.seeds ++ (s.events.filter (fun ev => decide (ev.lab = ELabel.discovery))).map Event.w)
  push_reach : ∀ y ∈ s.pushes, ∃ x ∈ s.seeds, Reach g x y

/-- The invariant holding between the component traversals of one run. -/
def RunInv (g : Graph) (s : BFSState) : Prop :=
  Inv g s ∧ PopsScanned g s ∧ Closed g s ∧ s.queue = [] ∧
  (∀ x ∈ s.seeds, x ∈ g.verts) ∧
  (∀ x ∈ s.seeds, ∀ y, Reach g x y → s.vertex_labels y = VLabel.visited) ∧
  (∀ x1 ∈ s.seeds, ∀ x2 ∈ s.seeds, Reach g x1 x2 → x1 = x2)

/-- Agreement of two run states everywhere the traversal of `g` can look:
equal control state and logs, equal vertex labels on the graph's vertices,
equal edge labels on the graph's edge values. -/
def LabAgree (g : Graph) (s t : BFSState) : Prop :=
  s.queue = t.queue ∧ s.pops = t.pops ∧ s.pushes = t.pushes ∧
  s.events = t.events ∧ s.seeds = t.seeds ∧
  (∀ v ∈ g.verts, s.vertex_labels v = t.vertex_labels v) ∧
  (∀ e ∈ edgeObjects g, s.edge_labels (ekey e) = t.edge_labels (ekey e))

/-! ### Basic facts about labels, edge keys and graph access -/

theorem VLabel.not_unexplored {l : VLabel} (h : l ≠ VLabel.unexplored) :
    l = VLabel.visited := by
  cases l
  · exact absurd rfl h
  · rfl

theorem VLabel.not_visited {l : VLabel} (h : l ≠ VLabel.visited) :
    l = VLabel.unexplored := by
  cases l
  · rfl
  · exact absurd rfl h

theorem ELabel.settled {l : ELabel} (h : l ≠ ELabel.unexplored) :
    l = ELabel.discovery ∨ l = ELabel.cross := by
  cases l
  · exact absurd rfl h
  · exact Or.inl rfl
  · exact Or.inr rfl

theorem ekey_fst (e : Edge) : (ekey e).1 = min e.src e.dst := rfl

theorem ekey_snd (e : Edge) : (ekey e).2 = max e.src e.dst := rfl

theorem ekey_cases (e : Edge) :
    ((ekey e).1 = e.src ∧ (ekey e).2 = e.dst) ∨
    ((ekey e).1 = e.dst ∧ (ekey e).2 = e.src) := by
  rw [ekey_fst, ekey_snd]
  omega

theorem pyEq_of_ekey {e1 e2 : Edge} (h : ekey e1 = ekey e2) : pyEq e1 e2 := by
  have h1 : min e1.src e1.dst = min e2.src e2.dst := congrArg Prod.fst h
  have h2 : max e1.src e1.dst = max e2.src e2.dst := congrArg Prod.snd h
  unfold pyEq
  omega

theorem ekey_same_ends {e1 e2 : Edge} (h : ekey e1 = ekey e2) (x : Nat) :
    (x = e1.src ∨ x = e1.dst) ↔ (x = e2.src ∨ x = e2.dst) := by
  have h1 : min e1.src e1.dst = min e2.src e2.dst := congrArg Prod.fst h
  have h2 : max e1.src e1.dst = max e2.src e2.dst := congrArg Prod.snd h
  omega

theorem opposite_ends (v : Nat) (e : Edge) :
    opposite v e = e.src ∨ opposite v e = e.dst := by
  unfold opposite
  split
  · exact Or.inr rfl
  · exact Or.inl rfl

theorem aget_sub {al : List (Nat × List Edge)} {v : Nat} {e : Edge}
    (h : e ∈ aget al v) : ∃ p ∈ al, p.1 = v ∧ e ∈ p.2 := by
  induction al with
  | nil => simp [aget] at h
  | cons p ps ih =>
    by_cases hp : p.1 = v
    · refine ⟨p, List.mem_cons_self _ _, hp, ?_⟩
      simpa [aget, hp] using h
    · rw [aget, if_neg hp] at h
      obtain ⟨q, hq, h1, h2⟩ := ih h
      exact ⟨q, List.mem_cons_of_mem _ hq, h1, h2⟩

theorem mem_edgeObjects {g : Graph} {e : Edge} :
    e ∈ edgeObjects g ↔ ∃ p ∈ g.adj, e ∈ p.2 := by
  unfold edgeObjects
  rw [List.mem_flatten]
  constructor
  · rintro ⟨l, hl, he⟩
    obtain ⟨p, hp, rfl⟩ := List.mem_map.mp hl
    exact ⟨p, hp, he⟩
  · rintro ⟨p, hp, he⟩
    exact ⟨p.2, List.mem_map_of_mem _ hp, he⟩

theorem adjGet_sub {g : Graph} {v : Nat} {e : Edge} (h : e ∈ adjGet g v) :
    e ∈ edgeObjects g := by
  obtain ⟨p, hp, -, h2⟩ := aget_sub h
  exact mem_edgeObjects.mpr ⟨p, hp, h2⟩

theorem WF.adj_keys {g : Graph} (h : WF g) : g.adj.map Prod.fst = g.verts := h.1

theorem WF.verts_nodup {g : Graph} (h : WF g) : g.verts.Nodup := h.2.1

theorem WF.ends_mem {g : Graph} (h : WF g) :
    ∀ e ∈ edgeObjects g, e.src ∈ g.verts ∧ e.dst ∈ g.verts := h.2.2.1

theorem WF.incident {g : Graph} (h : WF g) :
    ∀ p ∈ g.adj, ∀ e ∈ p.2, e.src = p.1 ∨ e.dst = p.1 := h.2.2.2.1

theorem WF.both_lists {g : Graph} (h : WF g) :
    ∀ e ∈ edgeObjects g, e ∈ adjGet g e.src ∧ e ∈ adjGet g e.dst := h.2.2.2.2

theorem WF_endpoint {g : Graph} (hWF : WF g) {v : Nat} {e : Edge}
    (h : e ∈ adjGet g v) : e.src = v ∨ e.dst = v := by
  obtain ⟨p, hp, h1, h2⟩ := aget_sub h
  have := hWF.incident p hp e h2
  rw [h1] at this
  exact this

theorem scan_ends {g : Graph} (hWF : WF g) {v : Nat} {e : Edge}
    (he : e ∈ adjGet g v) :
    (e.src = v ∧ e.dst = opposite v e) ∨ (e.src = opposite v e ∧ e.dst = v) := by
  have hv : e.src = v ∨ e.dst = v := WF_endpoint hWF he
  unfold opposite
  by_cases h : e.src = v
  · rw [if_pos h]
    exact Or.inl ⟨h, rfl⟩
  · rw [if_neg h]
    exact Or.inr ⟨rfl, hv.resolve_left h⟩

theorem adjRel_of_scan {g : Graph} (hWF : WF g) {v : Nat} {e : Edge}
    (he : e ∈ adjGet g v) : adjRel g v (opposite v e) := by
  refine ⟨e, adjGet_sub he, ?_⟩
  rcases scan_ends hWF he with ⟨h1, h2⟩ | ⟨h1, h2⟩
  · exact Or.inl ⟨h1, h2⟩
  · exact Or.inr ⟨h1, h2⟩

theorem adjRel_symm {g : Graph} {x y : Nat} (h : adjRel g x y) : adjRel g y x := by
  obtain ⟨e, he, h1⟩ := h
  exact ⟨e, he, h1.symm⟩

theorem adjRel_mem_right {g : Graph} (hWF : WF g) {x y : Nat}
    (h : adjRel g x y) : y ∈ g.verts := by
  obtain ⟨e, he, h1⟩ := h
  have := hWF.ends_mem e he
  rcases h1 with ⟨-, h2⟩ | ⟨h2, -⟩
  · rw [← h2]; exact this.2
  · rw [← h2]; exact this.1

theorem Reach.refl {g : Graph} (x : Nat) : Reach g x x :=
  Relation.ReflTransGen.refl

theorem Reach.trans {g : Graph} {x y z : Nat} (h1 : Reach g x y)
    (h2 : Reach g y z) : Reach g x z :=
  Relation.ReflTransGen.trans h1 h2

theorem Reach.tail {g : Graph} {x y z : Nat} (h1 : Reach g x y)
    (h2 : adjRel g y z) : Reach g x z :=
  Relation.ReflTransGen.tail h1 h2

theorem Reach.symm {g : Graph} {x y : Nat} (h : Reach g x y) : Reach g y x := by
  induction h with
  | refl => exact Reach.refl x
  | tail _ hr ih => exact Relation.ReflTransGen.head (adjRel_symm hr) ih

/-! ### Deduplication by edge value and label initialisation -/

theorem dedupByKey_sub : ∀ (l : List Edge) (seen : List (Nat × Nat)),
    ∀ e ∈ dedupByKey l seen, e ∈ l := by
  intro l
  induction l with
  | nil => intro seen e he; simp [dedupByKey] at he
  | cons a as ih =>
    intro seen e he
    rw [dedupByKey] at he
    split at he
    · exact List.mem_cons_of_mem _ (ih seen e he)
    · rcases List.mem_cons.mp he with h | h
      · rw [h]; exact List.mem_cons_self _ _
      · exact List.mem_cons_of_mem _ (ih _ e h)

theorem dedupByKey_keys : ∀ (l : List Edge) (seen : List (Nat × Nat)) (k : Nat × Nat),
    k ∈ (dedupByKey l seen).map ekey ↔ (k ∈ l.map ekey ∧ k ∉ seen) := by
  intro l
  induction l with
  | nil => intro seen k; simp [dedupByKey]
  | cons a as ih =>
    intro seen k
    rw [dedupByKey]
    split
    · rename_i hmem
      rw [ih]
      simp only [List.map_cons, List.mem_cons]
      constructor
      · rintro ⟨h1, h2⟩; exact ⟨Or.inr h1, h2⟩
      · rintro ⟨h1 | h1, h2⟩
        · exact absurd (h1 ▸ hmem) h2
        · exact ⟨h1, h2⟩
    · rename_i hmem
      simp only [List.map_cons, List.mem_cons, ih, List.mem_cons]
      constructor
      · rintro (h | ⟨h1, h2⟩)
        · exact ⟨Or.inl h, h ▸ hmem⟩
        · exact ⟨Or.inr h1, fun hk => h2 (Or.inr hk)⟩
      · rintro ⟨h1 | h1, h2⟩
        · exact Or.inl h1
        · by_cases hak : k = ekey a
          · exact Or.inl hak
          · exact Or.inr ⟨h1, fun hk => (hk.elim hak h2)⟩

theorem dedupByKey_keys_nodup : ∀ (l : List Edge) (seen : List (Nat × Nat)),
    ((dedupByKey l seen).map ekey).Nodup ∧
    ∀ k ∈ (dedupByKey l seen).map ekey, k ∉ seen := by
  intro l
  induction l with
  | nil => intro seen; simp [dedupByKey]
  | cons a as ih =>
    intro seen
    rw [dedupByKey]
    split
    · exact ih seen
    · rename_i hmem
      obtain ⟨ihn, ihs⟩ := ih (ekey a :: seen)
      refine ⟨?_, ?_⟩
      · rw [List.map_cons, List.nodup_cons]
        refine ⟨fun hk => ?_, ihn⟩
        exact (ihs _ hk) (List.mem_cons_self _ _)
      · intro k hk
        rw [List.map_cons] at hk
        rcases List.mem_cons.mp hk with h | h
        · exact h ▸ hmem
        · intro hks
          exact (ihs _ h) (List.mem_cons_of_mem _ hks)

theorem edges_sub {g : Graph} {e : Edge} (h : e ∈ edges g) : e ∈ edgeObjects g :=
  dedupByKey_sub _ _ e h

theorem edges_keys {g : Graph} (k : Nat × Nat) :
    k ∈ (edges g).map ekey ↔ k ∈ (edgeObjects g).map ekey := by
  rw [edges, dedupByKey_keys]
  simp

theorem edges_keys_nodup (g : Graph) : ((edges g).map ekey).Nodup :=
  (dedupByKey_keys_nodup _ _).1

theorem foldl_updV_or (l : List Nat) (f : Nat → VLabel) (x : Nat) :
    (l.foldl (fun h v => updV h v VLabel.unexplored) f) x = VLabel.unexplored ∨
    (l.foldl (fun h v => updV h v VLabel.unexplored) f) x = f x := by
  induction l generalizing f with
  | nil => exact Or.inr rfl
  | cons v vs ih =>
    rw [List.foldl_cons]
    rcases ih (updV f v VLabel.unexplored) with h | h
    · exact Or.inl h
    · rw [h, updV]
      split
      · exact Or.inl rfl
      · exact Or.inr rfl

theorem foldl_updV_mem (l : List Nat) (f : Nat → VLabel) {x : Nat} (hx : x ∈ l) :
    (l.foldl (fun h v => updV h v VLabel.unexplored) f) x = VLabel.unexplored := by
  induction l generalizing f with
  | nil => simp at hx
  | cons v vs ih =>
    rw [List.foldl_cons]
    rcases List.mem_cons.mp hx with h | h
    · rcases foldl_updV_or vs (updV f v VLabel.unexplored) x with h2 | h2
      · exact h2
      · rw [h2, updV, if_pos h]
    · exact ih _ h

theorem initV_mem {g : Graph} (f : Nat → VLabel) {v : Nat} (h : v ∈ g.verts) :
    initV g f v = VLabel.unexplored :=
  foldl_updV_mem _ f h

theorem foldl_updE_or (l : List Edge) (f : Nat × Nat → ELabel) (k : Nat × Nat) :
    (l.foldl (fun h e => updE h (ekey e) ELabel.unexplored) f) k = ELabel.unexplored ∨
    (l.foldl (fun h e => updE h (ekey e) ELabel.unexplored) f) k = f k := by
  induction l generalizing f with
  | nil => exact Or.inr rfl
  | cons e es ih =>
    rw [List.foldl_cons]
    rcases ih (updE f (ekey e) ELabel.unexplored) with h | h
    · exact Or.inl h
    · rw [h, updE]
      split
      · exact Or.inl rfl
      · exact Or.inr rfl

theorem foldl_updE_mem (l : List Edge) (f : Nat × Nat → ELabel) {k : Nat × Nat}
    (hk : k ∈ l.map ekey) :
    (l.foldl (fun h e => updE h (ekey e) ELabel.unexplored) f) k = ELabel.unexplored := by
  induction l generalizing f with
  | nil => simp at hk
  | cons e es ih =>
    rw [List.foldl_cons]
    rw [List.map_cons] at hk
    rcases List.mem_cons.mp hk with h | h
    · rcases foldl_updE_or es (updE f (ekey e) ELabel.unexplored) k with h2 | h2
      · exact h2
      · rw [h2, updE, if_pos h]
    · exact ih _ h

theorem initE_mem {g : Graph} (f : Nat × Nat → ELabel) {e : Edge}
    (h : e ∈ edgeObjects g) : initE g f (ekey e) = ELabel.unexplored := by
  refine foldl_updE_mem _ f ?_
  rw [edges_keys]
  exact List.mem_map_of_mem _ h

/-! ### Association-list lemmas for the adjacency map -/

theorem aget_nil_of_not_mem : ∀ {al : List (Nat × List Edge)} {v : Nat},
    v ∉ al.map Prod.fst → aget al v = [] := by
  intro al
  induction al with
  | nil => intro v _; rfl
  | cons p ps ih =>
    intro v hv
    simp only [List.map_cons, List.mem_cons] at hv
    push_neg at hv
    simp only [aget]
    rw [if_neg (fun h => hv.1 h.symm)]
    exact ih (hv.2)

theorem aget_append (al bl : List (Nat × List Edge)) (v : Nat) :
    aget (al ++ bl) v = if v ∈ al.map Prod.fst then aget al v else aget bl v := by
  induction al with
  | nil => simp [aget]
  | cons p ps ih =>
    show aget (p :: (ps ++ bl)) v = _
    by_cases hp : p.1 = v
    · have hmem : v ∈ (p :: ps).map Prod.fst := by
        rw [List.map_cons]
        exact List.mem_cons.mpr (Or.inl hp.symm)
      rw [if_pos hmem]
      simp only [aget]
      rw [if_pos hp, if_pos hp]
    · by_cases hv : v ∈ ps.map Prod.fst
      · have hmem : v ∈ (p :: ps).map Prod.fst := by
          rw [List.map_cons]
          exact List.mem_cons.mpr (Or.inr hv)
        rw [if_pos hmem]
        simp only [aget]
        rw [if_neg hp, if_neg hp, ih, if_pos hv]
      · have hmem : v ∉ (p :: ps).map Prod.fst := by
          rw [List.map_cons, List.mem_cons]
          rintro (h | h)
          · exact hp h.symm
          · exact hv h
        rw [if_neg hmem]
        simp only [aget]
        rw [if_neg hp, ih, if_neg hv]

theorem adjApp_id {al : List (Nat × List Edge)} {v : Nat} (e : Edge)
    (hv : v ∉ al.map Prod.fst) : adjApp al v e = al := by
  induction al with
  | nil => rfl
  | cons p ps ih =>
    simp only [List.map_cons, List.mem_cons] at hv
    push_neg at hv
    show (if p.1 = v then (p.1, p.2 ++ [e]) else p) :: adjApp ps v e = p :: ps
    rw [if_neg (fun h => hv.1 h.symm), ih hv.2]

theorem adjApp_keys (al : List (Nat × List Edge)) (v : Nat) (e : Edge) :
    (adjApp al v e).map Prod.fst = al.map Prod.fst := by
  unfold adjApp
  rw [List.map_map]
  apply List.map_congr_left
  intro p _
  by_cases hp : p.1 = v
  · simp [hp]
  · simp [hp]

theorem adjApp_snd (al : List (Nat × List Edge)) (v : Nat) (e : Edge) :
    (adjApp al v e).map Prod.snd =
      al.map (fun p => if p.1 = v then p.2 ++ [e] else p.2) := by
  unfold adjApp
  rw [List.map_map]
  apply List.map_congr_left
  intro p _
  by_cases hp : p.1 = v
  · simp [hp]
  · simp [hp]

theorem adjApp_flat_mem {al : List (Nat × List Edge)} {v : Nat} {e x : Edge} :
    x ∈ ((adjApp al v e).map Prod.snd).flatten ↔
      (x ∈ (al.map Prod.snd).flatten ∨ (x = e ∧ v ∈ al.map Prod.fst)) := by
  rw [adjApp_snd]
  simp only [List.mem_flatten, List.mem_map]
  constructor
  · rintro ⟨l, ⟨p, hp, rfl⟩, hx⟩
    by_cases hpv : p.1 = v
    · rw [if_pos hpv] at hx
      rcases List.mem_append.mp hx with h | h
      · exact Or.inl ⟨p.2, ⟨p, hp, rfl⟩, h⟩
      · exact Or.inr ⟨List.mem_singleton.mp h, ⟨p, hp, hpv⟩⟩
    · rw [if_neg hpv] at hx
      exact Or.inl ⟨p.2, ⟨p, hp, rfl⟩, hx⟩
  · rintro (⟨l, ⟨p, hp, rfl⟩, hx⟩ | ⟨heq, hv⟩)
    · refine ⟨if p.1 = v then p.2 ++ [e] else p.2, ⟨p, hp, rfl⟩, ?_⟩
      split
      · exact List.mem_append_left _ hx
      · exact hx
    · obtain ⟨p, hp, hpv⟩ := hv
      rw [heq]
      exact ⟨p.2 ++ [e], ⟨p, hp, by rw [if_pos hpv]⟩,
        List.mem_append_right _ (List.mem_singleton.mpr rfl)⟩

theorem aget_adjApp {al : List (Nat × List Edge)} {v : Nat}
    (hv : v ∈ al.map Prod.fst) (e : Edge) (u : Nat) :
    aget (adjApp al v e) u = if u = v then aget al u ++ [e] else aget al u := by
  induction al with
  | nil => simp at hv
  | cons p ps ih =>
    have hstep : adjApp (p :: ps) v e =
        (if p.1 = v then (p.1, p.2 ++ [e]) else p) :: adjApp ps v e := rfl
    rw [hstep]
    by_cases hpv : p.1 = v
    · by_cases hpu : p.1 = u
      · have huv : u = v := by rw [← hpu, hpv]
        simp [aget, hpv, hpu, huv]
      · have huv : u ≠ v := fun h => hpu (by rw [hpv, h])
        have hvu : v ≠ u := fun h => huv h.symm
        by_cases hv2 : v ∈ ps.map Prod.fst
        · simp [aget, hpv, hpu, huv, hvu, ih hv2]
        · simp [aget, hpv, hpu, huv, hvu, adjApp_id e hv2]
    · have hv2 : v ∈ ps.map Prod.fst := by
        rcases List.mem_map.mp hv with ⟨q, hq, hq1⟩
        rcases List.mem_cons.mp hq with h | h
        · exact absurd (h ▸ hq1) hpv
        · exact List.mem_map.mpr ⟨q, h, hq1⟩
      by_cases hpu : p.1 = u
      · have huv : u ≠ v := fun h => hpv (by rw [hpu, h])
        simp [aget, hpv, hpu, huv]
      · simp [aget, hpv, hpu, ih hv2]

theorem mem_adjApp_entry {al : List (Nat × List Edge)} {v : Nat} {e : Edge}
    {p' : Nat × List Edge} (h : p' ∈ adjApp al v e) :
    ∃ p ∈ al, p'.1 = p.1 ∧ (p'.2 = p.2 ∨ (p'.2 = p.2 ++ [e] ∧ p.1 = v)) := by
  unfold adjApp at h
  rcases List.mem_map.mp h with ⟨p, hp, rfl⟩
  by_cases hpv : p.1 = v
  · exact ⟨p, hp, by rw [if_pos hpv], Or.inr ⟨by rw [if_pos hpv], hpv⟩⟩
  · exact ⟨p, hp, by rw [if_neg hpv], Or.inl (by rw [if_neg hpv])⟩

/-! ### The construction invariant holds for every buildable graph -/

theorem insertVertex_nextEid (g : Graph) (x : Nat) :
    (insertVertex g x).nextEid = g.nextEid := by
  unfold insertVertex
  split <;> rfl

theorem insertVertex_mem_self (g : Graph) (x : Nat) :
    x ∈ (insertVertex g x).verts := by
  unfold insertVertex
  split
  · assumption
  · exact List.mem_append_right _ (List.mem_singleton.mpr rfl)

theorem insertVertex_verts_mono {g : Graph} {y : Nat} (x : Nat)
    (h : y ∈ g.verts) : y ∈ (insertVertex g x).verts := by
  unfold insertVertex
  split
  · exact h
  · exact List.mem_append_left _ h

theorem insertVertex_objs (g : Graph) (x : Nat) :
    edgeObjects (insertVertex g x) = edgeObjects g := by
  unfold insertVertex
  split
  · rfl
  · show ((g.adj ++ [(x, [])]).map Prod.snd).flatten = edgeObjects g
    rw [List.map_append, List.flatten_append]
    simp [edgeObjects]

theorem GraphInv.wf {g : Graph} (h : GraphInv g) : WF g := by
  obtain ⟨h1, h2, h3, h4⟩ := h
  refine ⟨h1, h2, ?_, ?_, ?_⟩
  · intro e he
    obtain ⟨p, hp, hep⟩ := mem_edgeObjects.mp he
    exact ⟨(h3 p hp e hep).2.1, (h3 p hp e hep).2.2.1⟩
  · intro p hp e hep
    exact (h3 p hp e hep).1
  · intro e he
    constructor
    · rw [← List.count_pos_iff, h4 e he e.src, if_pos rfl]
      exact Nat.add_pos_left Nat.one_pos _
    · rw [← List.count_pos_iff, h4 e he e.dst, if_pos rfl]
      exact Nat.add_pos_right _ Nat.one_pos

theorem GraphInv_empty : GraphInv emptyGraph := by
  refine ⟨rfl, List.nodup_nil, ?_, ?_⟩
  · intro p hp
    simp [emptyGraph] at hp
  · intro e he
    simp [emptyGraph, edgeObjects] at he

theorem GraphInv_insertVertex {g : Graph} (h : GraphInv g) (x : Nat) :
    GraphInv (insertVertex g x) := by
  obtain ⟨h1, h2, h3, h4⟩ := h
  unfold insertVertex
  by_cases hx : x ∈ g.verts
  · rw [if_pos hx]
    exact ⟨h1, h2, h3, h4⟩
  · rw [if_neg hx]
    have hobjs : edgeObjects { g with verts := g.verts ++ [x], adj := g.adj ++ [(x, [])] } =
        edgeObjects g := by
      show ((g.adj ++ [(x, [])]).map Prod.snd).flatten = edgeObjects g
      rw [List.map_append, List.flatten_append]
      simp [edgeObjects]
    refine ⟨?_, ?_, ?_, ?_⟩
    · show (g.adj ++ [(x, [])]).map Prod.fst = g.verts ++ [x]
      rw [List.map_append, h1]
      rfl
    · show (g.verts ++ [x]).Nodup
      rw [List.nodup_append]
      exact ⟨h2, List.nodup_singleton x, by simpa using hx⟩
    · intro p hp e hep
      rcases List.mem_append.mp hp with h | h
      · obtain ⟨hi, hs, hd, he⟩ := h3 p h e hep
        exact ⟨hi, List.mem_append_left _ hs, List.mem_append_left _ hd, he⟩
      · rw [List.mem_singleton.mp h] at hep
        simp at hep
    · intro e he u
      rw [hobjs] at he
      show (aget (g.adj ++ [(x, [])]) u).count e = _
      rw [aget_append]
      by_cases hu : u ∈ g.adj.map Prod.fst
      · rw [if_pos hu]
        exact h4 e he u
      · rw [if_neg hu]
        rw [h1] at hu
        obtain ⟨p, hp, hep⟩ := mem_edgeObjects.mp he
        obtain ⟨-, hs, hd, -⟩ := h3 p hp e hep
        have hns : ¬ u = e.src := by
          intro hh
          rw [hh] at hu
          exact hu hs
        have hnd : ¬ u = e.dst := by
          intro hh
          rw [hh] at hu
          exact hu hd
        rw [if_neg hns, if_neg hnd]
        simp only [aget]
        by_cases hxu : x = u
        · rw [if_pos hxu]
          rfl
        · rw [if_neg hxu]
          rfl

theorem GraphInv_insertEdge {g : Graph} (h : GraphInv g) (a b : Nat) :
    GraphInv (insertEdge g a b) := by
  have hg1 : GraphInv (insertVertex g a) := GraphInv_insertVertex h a
  have hg2 : GraphInv (insertVertex (insertVertex g a) b) :=
    GraphInv_insertVertex hg1 b
  set g2 := insertVertex (insertVertex g a) b with hg2def
  have ha : a ∈ g2.verts :=
    insertVertex_verts_mono b (insertVertex_mem_self g a)
  have hb : b ∈ g2.verts := insertVertex_mem_self _ b
  obtain ⟨h1, h2, h3, h4⟩ := hg2
  have haK : a ∈ g2.adj.map Prod.fst := by rw [h1]; exact ha
  have hbK : b ∈ g2.adj.map Prod.fst := by rw [h1]; exact hb
  set eN : Edge := ⟨g2.nextEid, a, b⟩ with heN
  show GraphInv { g2 with adj := adjApp (adjApp g2.adj a eN) b eN, nextEid := g2.nextEid + 1 }
  have hbK2 : b ∈ (adjApp g2.adj a eN).map Prod.fst := by
    rw [adjApp_keys]; exact hbK
  have hobjs : ∀ x : Edge,
      x ∈ edgeObjects { g2 with adj := adjApp (adjApp g2.adj a eN) b eN, nextEid := g2.nextEid + 1 } ↔ (x ∈ edgeObjects g2 ∨ x = eN) := by
    intro x
    show x ∈ ((adjApp (adjApp g2.adj a eN) b eN).map Prod.snd).flatten ↔ _
    rw [adjApp_flat_mem]
    constructor
    · rintro (h | ⟨h, -⟩)
      · rcases adjApp_flat_mem.mp h with h | ⟨h, -⟩
        · exact Or.inl h
        · exact Or.inr h
      · exact Or.inr h
    · rintro (h | h)
      · exact Or.inl (adjApp_flat_mem.mpr (Or.inl h))
      · exact Or.inr ⟨h, hbK2⟩
  have hnotold : eN ∉ edgeObjects g2 := by
    intro hmem
    obtain ⟨p, hp, hep⟩ := mem_edgeObjects.mp hmem
    have := (h3 p hp eN hep).2.2.2
    simp [heN] at this
  refine ⟨?_, h2, ?_, ?_⟩
  · show (adjApp (adjApp g2.adj a eN) b eN).map Prod.fst = g2.verts
    rw [adjApp_keys, adjApp_keys, h1]
  · intro p hp e hep
    obtain ⟨q, hq, hq1, hq2⟩ := mem_adjApp_entry hp
    obtain ⟨r, hr, hr1, hr2⟩ := mem_adjApp_entry hq
    have hmem : e ∈ r.2 ∨ e = eN := by
      rcases hq2 with h | ⟨h, -⟩
      · rw [h] at hep
        rcases hr2 with h' | ⟨h', -⟩
        · rw [h'] at hep
          exact Or.inl hep
        · rw [h'] at hep
          rcases List.mem_append.mp hep with hm | hm
          · exact Or.inl hm
          · exact Or.inr (List.mem_singleton.mp hm)
      · rw [h] at hep
        rcases List.mem_append.mp hep with hm | hm
        · rcases hr2 with h' | ⟨h', -⟩
          · rw [h'] at hm
            exact Or.inl hm
          · rw [h'] at hm
            rcases List.mem_append.mp hm with hm2 | hm2
            · exact Or.inl hm2
            · exact Or.inr (List.mem_singleton.mp hm2)
        · exact Or.inr (List.mem_singleton.mp hm)
    rcases hmem with hmem | hmem
    · obtain ⟨hi, hs, hd, he⟩ := h3 r hr e hmem
      rw [hq1, hr1]
      exact ⟨hi, hs, hd, Nat.lt_succ_of_lt he⟩
    · rw [hmem, heN]
      rw [hq1, hr1]
      constructor
      · rcases hq2 with hcase | ⟨-, hkey⟩
        · rcases hr2 with hcase2 | ⟨-, hkey2⟩
          · exfalso
            rw [hcase, hcase2] at hep
            exact hnotold (hmem ▸ mem_edgeObjects.mpr ⟨r, hr, hep⟩)
          · exact Or.inl hkey2.symm
        · exact Or.inr (show b = r.1 by rw [← hkey, hr1])
      · exact ⟨ha, hb, Nat.lt_succ_self _⟩
  · intro e he u
    rw [hobjs e] at he
    have hlist : aget (adjApp (adjApp g2.adj a eN) b eN) u =
        aget g2.adj u ++ (if u = a then [eN] else []) ++
          (if u = b then [eN] else []) := by
      rw [aget_adjApp hbK2 eN u, aget_adjApp haK eN u]
      by_cases hub : u = b
      · by_cases hua : u = a
        · have hba : b = a := by rw [← hub, hua]
          simp [hub, hua, hba, List.append_assoc]
        · have hba : ¬ b = a := fun hh => hua (by rw [hub, hh])
          simp [hub, hua, hba]
      · by_cases hua : u = a
        · have hab : ¬ a = b := fun hh => hub (by rw [hua, hh])
          simp [hub, hua, hab]
        · simp [hub, hua]
    show (aget (adjApp (adjApp g2.adj a eN) b eN) u).count e = _
    rw [hlist, List.count_append, List.count_append]
    rcases he with he | he
    · have heN2 : e ≠ eN := fun h => hnotold (h ▸ he)
      have base := h4 e he u
      have c1 : (if u = a then [eN] else []).count e = 0 := by
        split <;> simp [List.count_eq_zero, heN2]
      have c2 : (if u = b then [eN] else []).count e = 0 := by
        split <;> simp [List.count_eq_zero, heN2]
      rw [c1, c2]
      simpa using base
    · rw [he]
      have hcnt0 : (aget g2.adj u).count eN = 0 := by
        rw [List.count_eq_zero]
        intro hmem
        exact hnotold (adjGet_sub (g := g2) hmem)
      rw [hcnt0]
      have hsrc : eN.src = a := rfl
      have hdst : eN.dst = b := rfl
      rw [hsrc, hdst]
      by_cases hub : u = b
      · by_cases hua : u = a
        · have hba : b = a := by rw [← hub, hua]
          simp [hub, hua, hba]
        · have hba : ¬ b = a := fun hh => hua (by rw [hub, hh])
          simp [hub, hua, hba]
      · by_cases hua : u = a
        · have hab : ¬ a = b := fun hh => hub (by rw [hua, hh])
          simp [hub, hua, hab]
        · simp [hub, hua]

theorem GraphInv_applyOps (ops : List GOp) : GraphInv (applyOps ops) := by
  suffices h : ∀ (l : List GOp) (g : Graph), GraphInv g → GraphInv (l.foldl applyOp g) by
    exact h ops emptyGraph GraphInv_empty
  intro l
  induction l with
  | nil => intro g hg; exact hg
  | cons o os ih =>
    intro g hg
    rw [List.foldl_cons]
    refine ih _ ?_
    cases o with
    | addV x => exact GraphInv_insertVertex hg x
    | addE a b => exact GraphInv_insertEdge hg a b

/-- Every graph built through the public `insert_vertex` / `insert_edge`
interface is well-formed in the sense of `WF`. -/
theorem applyOps_WF (ops : List GOp) : WF (applyOps ops) :=
  (GraphInv_applyOps ops).wf

/-! ### Label store updates -/

theorem updV_self (f : Nat → VLabel) (x : Nat) (l : VLabel) : updV f x l x = l := by
  simp [updV]

theorem updV_other (f : Nat → VLabel) (x : Nat) (l : VLabel) {y : Nat}
    (h : y ≠ x) : updV f x l y = f y := by
  simp [updV, h]

theorem updV_mono {f : Nat → VLabel} {x y : Nat}
    (h : f y = VLabel.visited) : updV f x VLabel.visited y = VLabel.visited := by
  unfold updV
  split
  · rfl
  · exact h

theorem updE_self (f : Nat × Nat → ELabel) (k : Nat × Nat) (l : ELabel) :
    updE f k l k = l := by
  simp [updE]

theorem updE_other (f : Nat × Nat → ELabel) (k : Nat × Nat) (l : ELabel)
    {k2 : Nat × Nat} (h : k2 ≠ k) : updE f k l k2 = f k2 := by
  simp [updE, h]

/-! ### Invariant preservation by a single edge scan -/

theorem discStep_inv {g : Graph} (hWF : WF g) {v : Nat} {s : BFSState}
    (hinv : Inv g s) (hv : v ∈ s.pops) {e : Edge} (he : e ∈ adjGet g v)
    (hw : s.vertex_labels (opposite v e) = VLabel.unexplored) :
    Inv g (discStep s (opposite v e) (ekey e)) := by
  set w := opposite v e with hwdef
  have hvvis : s.vertex_labels v = VLabel.visited := hinv.pops_vis v hv
  have hends : (e.src = v ∧ e.dst = w) ∨ (e.src = w ∧ e.dst = v) :=
    scan_ends hWF he
  have heobj : e ∈ edgeObjects g := adjGet_sub he
  have hne : v ≠ w := by
    intro h
    rw [← h, hvvis] at hw
    cases hw
  have hkunex : s.edge_labels (ekey e) = ELabel.unexplored := by
    by_contra hcon
    have := hinv.lab_vis e heobj hcon
    rcases hends with ⟨h1, h2⟩ | ⟨h1, h2⟩
    · rw [← h2, this.2] at hw
      cases hw
    · rw [← h1, this.1] at hw
      cases hw
  have hwnotpush : w ∉ s.pushes := by
    intro hmem
    rw [hinv.push_split] at hmem
    rcases List.mem_append.mp hmem with h | h
    · rw [hinv.pops_vis w h] at hw
      cases hw
    · rw [hinv.queue_vis w h] at hw
      cases hw
  have hwvert : w ∈ g.verts := by
    have := hWF.ends_mem e heobj
    rcases hends with ⟨-, h2⟩ | ⟨h1, -⟩
    · rw [← h2]
      exact this.2
    · rw [← h1]
      exact this.1
  have hnoev : ∀ ev ∈ s.events, ev.k ≠ ekey e := by
    intro ev hev hk
    have h1 := hinv.ev_match ev hev
    rw [hk, hkunex] at h1
    exact hinv.ev_lab ev hev h1.symm
  have hvw_vis : ∀ z, (z = e.src ∨ z = e.dst) →
      updV s.vertex_labels w VLabel.visited z = VLabel.visited := by
    intro z hz
    have hzvw : z = v ∨ z = w := by
      rcases hends with ⟨h1, h2⟩ | ⟨h1, h2⟩ <;> rcases hz with hz | hz
      · exact Or.inl (hz.trans h1)
      · exact Or.inr (hz.trans h2)
      · exact Or.inr (hz.trans h1)
      · exact Or.inl (hz.trans h2)
    rcases hzvw with rfl | rfl
    · rw [updV_other _ _ _ hne]
      exact hvvis
    · exact updV_self _ _ _
  refine ⟨?_, ?_, ?_, ?_, ?_, ?_, ?_, ?_, ?_, ?_, ?_, ?_, ?_, ?_, ?_, ?_⟩
  · show s.pushes ++ [w] = s.pops ++ (s.queue ++ [w])
    rw [hinv.push_split, List.append_assoc]
  · intro x hx
    rcases List.mem_append.mp hx with h | h
    · exact updV_mono (hinv.queue_vis x h)
    · have hsub := List.mem_singleton.mp h
      subst hsub
      exact updV_self _ _ _
  · intro x hx
    exact updV_mono (hinv.pops_vis x hx)
  · show (s.pushes ++ [w]).Nodup
    rw [List.nodup_append]
    exact ⟨hinv.pushes_nodup, List.nodup_singleton w,
      fun a ha hb => hwnotpush ((List.mem_singleton.mp hb) ▸ ha)⟩
  · intro x hx
    rcases List.mem_append.mp hx with h | h
    · exact hinv.pushes_verts x h
    · have hsub := List.mem_singleton.mp h
      subst hsub
      exact hwvert
  · intro x hx hvis
    simp only [discStep] at hvis ⊢
    by_cases hxw : x = w
    · exact List.mem_append_right _ (List.mem_singleton.mpr hxw)
    · rw [updV_other _ _ _ hxw] at hvis
      exact List.mem_append_left _ (hinv.vis_pushed x hx hvis)
  · intro e2 he2 hlab
    simp only [discStep] at hlab ⊢
    by_cases hk : ekey e2 = ekey e
    · have h1 : e2.src = e.src ∨ e2.src = e.dst :=
        (ekey_same_ends hk e2.src).mp (Or.inl rfl)
      have h2 : e2.dst = e.src ∨ e2.dst = e.dst :=
        (ekey_same_ends hk e2.dst).mp (Or.inr rfl)
      exact ⟨hvw_vis _ h1, hvw_vis _ h2⟩
    · rw [updE_other _ _ _ hk] at hlab
      have := hinv.lab_vis e2 he2 hlab
      exact ⟨updV_mono this.1, updV_mono this.2⟩
  · intro ev hev
    simp only [discStep] at hev ⊢
    rcases List.mem_append.mp hev with h | h
    · rw [updE_other _ _ _ (hnoev ev h)]
      exact hinv.ev_match ev h
    · have hsub := List.mem_singleton.mp h
      subst hsub
      exact updE_self _ _ _
  · intro ev hev
    rcases List.mem_append.mp hev with h | h
    · exact hinv.ev_lab ev h
    · have hsub := List.mem_singleton.mp h
      subst hsub
      intro hcon
      cases hcon
  · show ((s.events ++ [(⟨w, ekey e, ELabel.discovery⟩ : Event)]).map Event.k).Nodup
    rw [List.map_append, List.nodup_append]
    refine ⟨hinv.ev_nodup, List.nodup_singleton _, ?_⟩
    intro a ha hb
    obtain ⟨ev, hev, hevk⟩ := List.mem_map.mp ha
    have : a = ekey e := List.mem_singleton.mp hb
    exact hnoev ev hev (hevk.trans this)
  · intro ev hev
    rcases List.mem_append.mp hev with h | h
    · exact hinv.ev_key ev h
    · have hsub := List.mem_singleton.mp h
      subst hsub
      exact ⟨e, heobj, rfl⟩
  · intro ev hev
    rcases List.mem_append.mp hev with h | h
    · exact hinv.ev_w ev h
    · have hsub := List.mem_singleton.mp h
      subst hsub
      show w = (ekey e).1 ∨ w = (ekey e).2
      rw [ekey_fst, ekey_snd]
      have hwe : w = e.src ∨ w = e.dst := by
        rcases hends with ⟨-, h2⟩ | ⟨h1, -⟩
        · exact Or.inr h2.symm
        · exact Or.inl h1.symm
      omega
  · intro ev hev hdisc
    rcases List.mem_append.mp hev with h | h
    · exact hinv.ev_disc_proper ev h hdisc
    · have hsub := List.mem_singleton.mp h
      subst hsub
      show (ekey e).1 ≠ (ekey e).2
      rw [ekey_fst, ekey_snd]
      have hvs : v = e.src ∨ v = e.dst := by
        rcases hends with ⟨h1, -⟩ | ⟨-, h2⟩
        · exact Or.inl h1.symm
        · exact Or.inr h2.symm
      have hwe : w = e.src ∨ w = e.dst := by
        rcases hends with ⟨-, h2⟩ | ⟨h1, -⟩
        · exact Or.inr h2.symm
        · exact Or.inl h1.symm
      have hsd : ¬ (e.src = e.dst) := by
        intro hcon
        apply hne
        rcases hvs with h1 | h1 <;> rcases hwe with h2 | h2 <;> omega
      omega
  · intro e2 he2 hlab
    simp only [discStep] at hlab ⊢
    by_cases hk : ekey e2 = ekey e
    · refine ⟨⟨w, ekey e, ELabel.discovery⟩,
        List.mem_append_right _ (List.mem_singleton.mpr rfl), hk.symm, ?_⟩
      show ELabel.discovery = updE s.edge_labels (ekey e) ELabel.discovery (ekey e2)
      rw [hk, updE_self]
    · rw [updE_other _ _ _ hk] at hlab ⊢
      obtain ⟨ev, hev, h1, h2⟩ := hinv.lab_ev e2 he2 hlab
      exact ⟨ev, List.mem_append_left _ hev, h1, h2⟩
  · show (s.pushes ++ [w]).Perm
      (s.seeds ++ ((s.events ++ [(⟨w, ekey e, ELabel.discovery⟩ : Event)]).filter
        (fun ev => decide (ev.lab = ELabel.discovery))).map Event.w)
    have hfil : (s.events ++ [(⟨w, ekey e, ELabel.discovery⟩ : Event)]).filter
        (fun ev => decide (ev.lab = ELabel.discovery)) =
        s.events.filter (fun ev => decide (ev.lab = ELabel.discovery)) ++
          [(⟨w, ekey e, ELabel.discovery⟩ : Event)] := by
      rw [List.filter_append]
      congr 1
    rw [hfil, List.map_append, List.map_singleton, ← List.append_assoc]
    exact hinv.push_perm.append_right [w]
  · intro y hy
    rcases List.mem_append.mp hy with h | h
    · exact hinv.push_reach y h
    · have hsub := List.mem_singleton.mp h
      subst hsub
      have hvpush : v ∈ s.pushes := by
        rw [hinv.push_split]
        exact List.mem_append_left _ hv
      obtain ⟨x0, hx0, hr⟩ := hinv.push_reach v hvpush
      exact ⟨x0, hx0, hr.tail (adjRel_of_scan hWF he)⟩

theorem crossStep_inv {g : Graph} (hWF : WF g) {v : Nat} {s : BFSState}
    (hinv : Inv g s) (hv : v ∈ s.pops) {e : Edge} (he : e ∈ adjGet g v)
    (hw : s.vertex_labels (opposite v e) ≠ VLabel.unexplored)
    (hk : s.edge_labels (ekey e) = ELabel.unexplored) :
    Inv g (crossStep s (opposite v e) (ekey e)) := by
  set w := opposite v e with hwdef
  have hvvis : s.vertex_labels v = VLabel.visited := hinv.pops_vis v hv
  have hwvis : s.vertex_labels w = VLabel.visited := VLabel.not_unexplored hw
  have hends : (e.src = v ∧ e.dst = w) ∨ (e.src = w ∧ e.dst = v) :=
    scan_ends hWF he
  have heobj : e ∈ edgeObjects g := adjGet_sub he
  have hnoev : ∀ ev ∈ s.events, ev.k ≠ ekey e := by
    intro ev hev hkk
    have h1 := hinv.ev_match ev hev
    rw [hkk, hk] at h1
    exact hinv.ev_lab ev hev h1.symm
  have hvw_vis : ∀ z, (z = e.src ∨ z = e.dst) →
      s.vertex_labels z = VLabel.visited := by
    intro z hz
    have hzvw : z = v ∨ z = w := by
      rcases hends with ⟨h1, h2⟩ | ⟨h1, h2⟩ <;> rcases hz with hz | hz
      · exact Or.inl (hz.trans h1)
      · exact Or.inr (hz.trans h2)
      · exact Or.inr (hz.trans h1)
      · exact Or.inl (hz.trans h2)
    rcases hzvw with rfl | rfl
    · exact hvvis
    · exact hwvis
  refine ⟨?_, ?_, ?_, ?_, ?_, ?_, ?_, ?_, ?_, ?_, ?_, ?_, ?_, ?_, ?_, ?_⟩
  · exact hinv.push_split
  · exact hinv.queue_vis
  · exact hinv.pops_vis
  · exact hinv.pushes_nodup
  · exact hinv.pushes_verts
  · exact hinv.vis_pushed
  · intro e2 he2 hlab
    simp only [crossStep] at hlab ⊢
    by_cases hkk : ekey e2 = ekey e
    · have h1 : e2.src = e.src ∨ e2.src = e.dst :=
        (ekey_same_ends hkk e2.src).mp (Or.inl rfl)
      have h2 : e2.dst = e.src ∨ e2.dst = e.dst :=
        (ekey_same_ends hkk e2.dst).mp (Or.inr rfl)
      exact ⟨hvw_vis _ h1, hvw_vis _ h2⟩
    · rw [updE_other _ _ _ hkk] at hlab
      exact hinv.lab_vis e2 he2 hlab
  · intro ev hev
    simp only [crossStep] at hev ⊢
    rcases List.mem_append.mp hev with h | h
    · rw [updE_other _ _ _ (hnoev ev h)]
      exact hinv.ev_match ev h
    · have hsub := List.mem_singleton.mp h
      subst hsub
      exact updE_self _ _ _
  · intro ev hev
    rcases List.mem_append.mp hev with h | h
    · exact hinv.ev_lab ev h
    · have hsub := List.mem_singleton.mp h
      subst hsub
      intro hcon
      cases hcon
  · show ((s.events ++ [(⟨w, ekey e, ELabel.cross⟩ : Event)]).map Event.k).Nodup
    rw [List.map_append, List.nodup_append]
    refine ⟨hinv.ev_nodup, List.nodup_singleton _, ?_⟩
    intro a ha hb
    obtain ⟨ev, hev, hevk⟩ := List.mem_map.mp ha
    have : a = ekey e := List.mem_singleton.mp hb
    exact hnoev ev hev (hevk.trans this)
  · intro ev hev
    rcases List.mem_append.mp hev with h | h
    · exact hinv.ev_key ev h
    · have hsub := List.mem_singleton.mp h
      subst hsub
      exact ⟨e, heobj, rfl⟩
  · intro ev hev
    rcases List.mem_append.mp hev with h | h
    · exact hinv.ev_w ev h
    · have hsub := List.mem_singleton.mp h
      subst hsub
      show w = (ekey e).1 ∨ w = (ekey e).2
      rw [ekey_fst, ekey_snd]
      have hwe : w = e.src ∨ w = e.dst := by
        rcases hends with ⟨-, h2⟩ | ⟨h1, -⟩
        · exact Or.inr h2.symm
        · exact Or.inl h1.symm
      omega
  · intro ev hev hdisc
    rcases List.mem_append.mp hev with h | h
    · exact hinv.ev_disc_proper ev h hdisc
    · have hsub := List.mem_singleton.mp h
      subst hsub
      cases hdisc
  · intro e2 he2 hlab
    simp only [crossStep] at hlab ⊢
    by_cases hkk : ekey e2 = ekey e
    · refine ⟨⟨w, ekey e, ELabel.cross⟩,
        List.mem_append_right _ (List.mem_singleton.mpr rfl), hkk.symm, ?_⟩
      show ELabel.cross = updE s.edge_labels (ekey e) ELabel.cross (ekey e2)
      rw [hkk, updE_self]
    · rw [updE_other _ _ _ hkk] at hlab ⊢
      obtain ⟨ev, hev, h1, h2⟩ := hinv.lab_ev e2 he2 hlab
      exact ⟨ev, List.mem_append_left _ hev, h1, h2⟩
  · show s.pushes.Perm
      (s.seeds ++ ((s.events ++ [(⟨w, ekey e, ELabel.cross⟩ : Event)]).filter
        (fun ev => decide (ev.lab = ELabel.discovery))).map Event.w)
    have hfil : (s.events ++ [(⟨w, ekey e, ELabel.cross⟩ : Event)]).filter
        (fun ev => decide (ev.lab = ELabel.discovery)) =
        s.events.filter (fun ev => decide (ev.lab = ELabel.discovery)) := by
      rw [List.filter_append]
      simp
    rw [hfil]
    exact hinv.push_perm
  · exact hinv.push_reach

/-- One pass of the inner edge loop preserves the invariant and makes
monotone progress; afterwards the scanned edge is classified and the
scanned neighbour is VISITED. -/
theorem scanEdge_inv {g : Graph} (hWF : WF g) {v : Nat} {s : BFSState}
    (hinv : Inv g s) (hv : v ∈ s.pops) {e : Edge} (he : e ∈ adjGet g v) :
    Inv g (scanEdge v s e) ∧
    (scanEdge v s e).pops = s.pops ∧
    (scanEdge v s e).seeds = s.seeds ∧
    (∃ l, (scanEdge v s e).queue = s.queue ++ l) ∧
    (∃ l, (scanEdge v s e).pushes = s.pushes ++ l) ∧
    (∃ l, (scanEdge v s e).events = s.events ++ l) ∧
    (∀ x, s.vertex_labels x = VLabel.visited →
      (scanEdge v s e).vertex_labels x = VLabel.visited) ∧
    (∀ k, s.edge_labels k ≠ ELabel.unexplored →
      (scanEdge v s e).edge_labels k = s.edge_labels k) ∧
    (scanEdge v s e).edge_labels (ekey e) ≠ ELabel.unexplored ∧
    (scanEdge v s e).vertex_labels (opposite v e) = VLabel.visited := by
  unfold scanEdge
  by_cases h1 : s.vertex_labels (opposite v e) = VLabel.unexplored
  · rw [if_pos h1]
    have hkunex : s.edge_labels (ekey e) = ELabel.unexplored := by
      by_contra hcon
      have hb := hinv.lab_vis e (adjGet_sub he) hcon
      rcases scan_ends hWF he with ⟨-, h2⟩ | ⟨h2, -⟩
      · rw [← h2, hb.2] at h1
        cases h1
      · rw [← h2, hb.1] at h1
        cases h1
    refine ⟨discStep_inv hWF hinv hv he h1, rfl, rfl, ⟨[opposite v e], rfl⟩,
      ⟨[opposite v e], rfl⟩, ⟨[⟨opposite v e, ekey e, ELabel.discovery⟩], rfl⟩,
      ?_, ?_, ?_, ?_⟩
    · intro x hx
      exact updV_mono hx
    · intro k hkk
      show updE s.edge_labels (ekey e) ELabel.discovery k = s.edge_labels k
      have : k ≠ ekey e := fun hc => hkk (hc ▸ hkunex)
      exact updE_other _ _ _ this
    · show updE s.edge_labels (ekey e) ELabel.discovery (ekey e) ≠ ELabel.unexplored
      rw [updE_self]
      intro hcon
      cases hcon
    · exact updV_self _ _ _
  · rw [if_neg h1]
    by_cases h2 : s.edge_labels (ekey e) = ELabel.unexplored
    · rw [if_pos h2]
      refine ⟨crossStep_inv hWF hinv hv he h1 h2, rfl, rfl, ⟨[], by simp [crossStep]⟩,
        ⟨[], by simp [crossStep]⟩, ⟨[⟨opposite v e, ekey e, ELabel.cross⟩], rfl⟩,
        ?_, ?_, ?_, ?_⟩
      · intro x hx
        exact hx
      · intro k hkk
        show updE s.edge_labels (ekey e) ELabel.cross k = s.edge_labels k
        have : k ≠ ekey e := fun hc => hkk (hc ▸ h2)
        exact updE_other _ _ _ this
      · show updE s.edge_labels (ekey e) ELabel.cross (ekey e) ≠ ELabel.unexplored
        rw [updE_self]
        intro hcon
        cases hcon
      · exact VLabel.not_unexplored h1
    · rw [if_neg h2]
      exact ⟨hinv, rfl, rfl, ⟨[], by simp⟩, ⟨[], by simp⟩, ⟨[], by simp⟩,
        fun x hx => hx, fun k hkk => rfl, h2, VLabel.not_unexplored h1⟩

/-- Folding the edge scan over a sublist of `v`'s incident list preserves
the invariant; afterwards every scanned edge is classified and every
scanned neighbour is VISITED. -/
theorem scanFold_inv {g : Graph} (hWF : WF g) {v : Nat} :
    ∀ (es : List Edge) (s : BFSState), Inv g s → v ∈ s.pops →
    (∀ e ∈ es, e ∈ adjGet g v) →
    Inv g (es.foldl (scanEdge v) s) ∧
    (es.foldl (scanEdge v) s).pops = s.pops ∧
    (es.foldl (scanEdge v) s).seeds = s.seeds ∧
    (∃ l, (es.foldl (scanEdge v) s).queue = s.queue ++ l) ∧
    (∃ l, (es.foldl (scanEdge v) s).pushes = s.pushes ++ l) ∧
    (∃ l, (es.foldl (scanEdge v) s).events = s.events ++ l) ∧
    (∀ x, s.vertex_labels x = VLabel.visited →
      (es.foldl (scanEdge v) s).vertex_labels x = VLabel.visited) ∧
    (∀ k, s.edge_labels k ≠ ELabel.unexplored →
      (es.foldl (scanEdge v) s).edge_labels k = s.edge_labels k) ∧
    (∀ e ∈ es, (es.foldl (scanEdge v) s).edge_labels (ekey e) ≠ ELabel.unexplored) ∧
    (∀ e ∈ es, (es.foldl (scanEdge v) s).vertex_labels (opposite v e) =
      VLabel.visited) := by
  intro es
  induction es with
  | nil =>
    intro s hinv hv hes
    exact ⟨hinv, rfl, rfl, ⟨[], by simp⟩, ⟨[], by simp⟩, ⟨[], by simp⟩,
      fun x hx => hx, fun k hk => rfl, fun e he => absurd he (by simp),
      fun e he => absurd he (by simp)⟩
  | cons e es ih =>
    intro s hinv hv hes
    obtain ⟨hinv1, hpops1, hseeds1, ⟨q1, hq1⟩, ⟨p1, hp1⟩, ⟨v1, hv1⟩, hmv1, hme1,
      hlab1, hvis1⟩ := scanEdge_inv hWF hinv hv (hes e (List.mem_cons_self _ _))
    have hv2 : v ∈ (scanEdge v s e).pops := hpops1 ▸ hv
    obtain ⟨hinv2, hpops2, hseeds2, ⟨q2, hq2⟩, ⟨p2, hp2⟩, ⟨v2, hv2'⟩, hmv2, hme2,
      hlab2, hvis2⟩ := ih (scanEdge v s e) hinv1 hv2
      (fun e2 he2 => hes e2 (List.mem_cons_of_mem _ he2))
    rw [List.foldl_cons]
    refine ⟨hinv2, hpops2.trans hpops1, hseeds2.trans hseeds1, ?_, ?_, ?_,
      ?_, ?_, ?_, ?_⟩
    · exact ⟨q1 ++ q2, by rw [hq2, hq1, List.append_assoc]⟩
    · exact ⟨p1 ++ p2, by rw [hp2, hp1, List.append_assoc]⟩
    · exact ⟨v1 ++ v2, by rw [hv2', hv1, List.append_assoc]⟩
    · intro x hx
      exact hmv2 x (hmv1 x hx)
    · intro k hk
      have ha := hme1 k hk
      have hb : (scanEdge v s e).edge_labels k ≠ ELabel.unexplored := by
        rw [ha]
        exact hk
      rw [hme2 k hb, ha]
    · intro e2 he2
      rcases List.mem_cons.mp he2 with h | h
      · subst h
        rw [hme2 _ hlab1]
        exact hlab1
      · exact hlab2 e2 h
    · intro e2 he2
      rcases List.mem_cons.mp he2 with h | h
      · subst h
        exact hmv2 _ hvis1
      · exact hvis2 e2 h

/-! ### Termination: the queue drains with the supplied fuel -/

theorem countP_updV_decr {l : List Nat} (hnd : l.Nodup) {f : Nat → VLabel}
    {w : Nat} (hw : w ∈ l) (hu : f w = VLabel.unexplored) :
    l.countP (fun x => decide (updV f w VLabel.visited x = VLabel.unexplored)) + 1 =
    l.countP (fun x => decide (f x = VLabel.unexplored)) := by
  induction l with
  | nil => simp at hw
  | cons a l ih =>
    rw [List.nodup_cons] at hnd
    rcases List.mem_cons.mp hw with h | h
    · subst h
      have h1 : (updV f w VLabel.visited w = VLabel.unexplored) = False := by
        rw [updV_self]
        simp
      rw [List.countP_cons, List.countP_cons]
      simp only [h1, hu]
      have h2 : l.countP
          (fun x => decide (updV f w VLabel.visited x = VLabel.unexplored)) =
          l.countP (fun x => decide (f x = VLabel.unexplored)) := by
        apply List.countP_congr
        intro x hx
        have : x ≠ w := fun hc => hnd.1 (hc ▸ hx)
        rw [updV_other _ _ _ this]
      rw [h2]
      simp
    · have haw : a ≠ w := fun hc => hnd.1 (hc ▸ h)
      rw [List.countP_cons, List.countP_cons, updV_other _ _ _ haw]
      have := ih hnd.2 h
      omega

theorem scanEdge_measure {g : Graph} {v : Nat} {s : BFSState} {e : Edge}
    (he : e ∈ adjGet g v) :
    (scanEdge v s e).queue.length + Ucount g (scanEdge v s e) ≤
      s.queue.length + Ucount g s := by
  unfold scanEdge
  by_cases h1 : s.vertex_labels (opposite v e) = VLabel.unexplored
  · rw [if_pos h1]
    have hwd : opposite v e ∈ (epts g).dedup := by
      rw [List.mem_dedup]
      have heo : e ∈ edgeObjects g := adjGet_sub he
      rcases opposite_ends v e with h | h
      · rw [h]
        exact List.mem_append_left _ (List.mem_map_of_mem _ heo)
      · rw [h]
        exact List.mem_append_right _ (List.mem_map_of_mem _ heo)
    have hcnt := countP_updV_decr (List.nodup_dedup _) hwd h1
    show (s.queue ++ [opposite v e]).length + Ucount g _ ≤ _
    rw [List.length_append]
    unfold Ucount at hcnt ⊢
    show s.queue.length + 1 + (epts g).dedup.countP
      (fun x => decide (updV s.vertex_labels (opposite v e) VLabel.visited x =
        VLabel.unexplored)) ≤ _
    omega
  · rw [if_neg h1]
    by_cases h2 : s.edge_labels (ekey e) = ELabel.unexplored
    · rw [if_pos h2]
      exact le_refl _
    · rw [if_neg h2]

theorem scanFold_measure {g : Graph} {v : Nat} :
    ∀ (es : List Edge) (s : BFSState), (∀ e ∈ es, e ∈ adjGet g v) →
    (es.foldl (scanEdge v) s).queue.length + Ucount g (es.foldl (scanEdge v) s) ≤
      s.queue.length + Ucount g s := by
  intro es
  induction es with
  | nil => intro s _; exact le_refl _
  | cons e es ih =>
    intro s hes
    rw [List.foldl_cons]
    exact le_trans (ih _ (fun e2 he2 => hes e2 (List.mem_cons_of_mem _ he2)))
      (scanEdge_measure (hes e (List.mem_cons_self _ _)))

theorem bfsLoop_drain {g : Graph} :
    ∀ (fuel : Nat) (s : BFSState),
    s.queue.length + Ucount g s ≤ fuel → (bfsLoop g fuel s).queue = [] := by
  intro fuel
  induction fuel with
  | zero =>
    intro s hs
    have h0 : s.queue.length = 0 := by omega
    show s.queue = []
    exact List.length_eq_zero.mp h0
  | succ fuel ih =>
    intro s hs
    rw [bfsLoop]
    cases hq : s.queue with
    | nil => exact hq
    | cons v rest =>
      apply ih
      have hm := scanFold_measure (g := g) (v := v) (adjGet g v)
        { s with queue := rest, pops := s.pops ++ [v] } (fun e2 he2 => he2)
      have hU : Ucount g { s with queue := rest, pops := s.pops ++ [v] } =
          Ucount g s := rfl
      have hQ : ({ s with queue := rest, pops := s.pops ++ [v] } :
          BFSState).queue.length = rest.length := rfl
      have hlen : s.queue.length = rest.length + 1 := by rw [hq]; rfl
      rw [hU, hQ] at hm
      omega

theorem Ucount_le (g : Graph) (s : BFSState) : Ucount g s ≤ (epts g).length :=
  le_trans (List.countP_le_length _) ((List.dedup_sublist _).length_le)

/-! ### The loop invariant -/

theorem adjRel_opposite {g : Graph} (hWF : WF g) {v y : Nat}
    (h : adjRel g v y) : ∃ e ∈ adjGet g v, opposite v e = y := by
  obtain ⟨e, he, hcase⟩ := h
  rcases hcase with ⟨h1, h2⟩ | ⟨h1, h2⟩
  · refine ⟨e, ?_, ?_⟩
    · rw [← h1]
      exact (hWF.both_lists e he).1
    · unfold opposite
      rw [if_pos h1, h2]
  · refine ⟨e, ?_, ?_⟩
    · rw [← h2]
      exact (hWF.both_lists e he).2
    · unfold opposite
      by_cases hsv : e.src = v
      · rw [if_pos hsv, h2, ← h1]
        exact hsv.symm
      · rw [if_neg hsv, h1]

theorem bfsLoop_inv {g : Graph} (hWF : WF g) :
    ∀ (fuel : Nat) (s : BFSState), Inv g s → PopsScanned g s → Closed g s →
    Inv g (bfsLoop g fuel s) ∧ PopsScanned g (bfsLoop g fuel s) ∧
    Closed g (bfsLoop g fuel s) ∧
    (bfsLoop g fuel s).seeds = s.seeds ∧
    (∃ l, (bfsLoop g fuel s).pops = s.pops ++ l) ∧
    (∃ l, (bfsLoop g fuel s).pushes = s.pushes ++ l) ∧
    (∃ l, (bfsLoop g fuel s).events = s.events ++ l) ∧
    (∀ x, s.vertex_labels x = VLabel.visited →
      (bfsLoop g fuel s).vertex_labels x = VLabel.visited) ∧
    (∀ k, s.edge_labels k ≠ ELabel.unexplored →
      (bfsLoop g fuel s).edge_labels k = s.edge_labels k) := by
  intro fuel
  induction fuel with
  | zero =>
    intro s h1 h2 h3
    exact ⟨h1, h2, h3, rfl, ⟨[], by simp [bfsLoop]⟩, ⟨[], by simp [bfsLoop]⟩,
      ⟨[], by simp [bfsLoop]⟩, fun x hx => hx, fun k hk => rfl⟩
  | succ fuel ih =>
    intro s hinv hps hcl
    rw [bfsLoop]
    cases hq : s.queue with
    | nil =>
      exact ⟨hinv, hps, hcl, rfl, ⟨[], by simp⟩, ⟨[], by simp⟩, ⟨[], by simp⟩,
        fun x hx => hx, fun k hk => rfl⟩
    | cons v rest =>
      have hvvis : s.vertex_labels v = VLabel.visited :=
        hinv.queue_vis v (by rw [hq]; exact List.mem_cons_self _ _)
      have hinv1 : Inv g { s with queue := rest, pops := s.pops ++ [v] } := by
        refine ⟨?_, ?_, ?_, hinv.pushes_nodup, hinv.pushes_verts, ?_, hinv.lab_vis,
          hinv.ev_match, hinv.ev_lab, hinv.ev_nodup, hinv.ev_key, hinv.ev_w,
          hinv.ev_disc_proper, hinv.lab_ev, hinv.push_perm, hinv.push_reach⟩
        · show s.pushes = (s.pops ++ [v]) ++ rest
          rw [List.append_assoc]
          show s.pushes = s.pops ++ (v :: rest)
          rw [hinv.push_split, hq]
        · intro x hx
          exact hinv.queue_vis x (by rw [hq]; exact List.mem_cons_of_mem _ hx)
        · intro x hx
          rcases List.mem_append.mp hx with h | h
          · exact hinv.pops_vis x h
          · rw [List.mem_singleton.mp h]
            exact hvvis
        · exact hinv.vis_pushed
      have hvp : v ∈ ({ s with queue := rest, pops := s.pops ++ [v] } :
          BFSState).pops :=
        List.mem_append_right _ (List.mem_singleton.mpr rfl)
      obtain ⟨hinv2, hpops2, hseeds2, ⟨q2, hq2⟩, ⟨p2, hp2⟩, ⟨v2, hv2⟩, hmv2, hme2,
        hlab2, hvis2⟩ := scanFold_inv hWF (adjGet g v)
          { s with queue := rest, pops := s.pops ++ [v] } hinv1 hvp
          (fun e2 he2 => he2)
      have hps2 : PopsScanned g
          ((adjGet g v).foldl (scanEdge v)
            { s with queue := rest, pops := s.pops ++ [v] }) := by
        intro x hx e2 he2
        rw [hpops2] at hx
        rcases List.mem_append.mp hx with h | h
        · have hold := hps x h e2 he2
          have heq := hme2 (ekey e2) hold
          rw [heq]
          exact hold
        · have hxv := List.mem_singleton.mp h
          subst hxv
          exact hlab2 e2 he2
      have hcl2 : Closed g
          ((adjGet g v).foldl (scanEdge v)
            { s with queue := rest, pops := s.pops ++ [v] }) := by
        intro x hx hvis
        by_cases hxv : x = v
        · subst hxv
          right
          intro y hy
          obtain ⟨e2, he2, hop⟩ := adjRel_opposite hWF hy
          rw [← hop]
          exact hvis2 e2 he2
        · by_cases hxold : s.vertex_labels x = VLabel.visited
          · rcases hcl x hx hxold with hmem | hnb
            · left
              rw [hq] at hmem
              rcases List.mem_cons.mp hmem with h | h
              · exact absurd h hxv
              · rw [hq2]
                exact List.mem_append_left _ h
            · right
              intro y hy
              exact hmv2 y (hnb y hy)
          · left
            have hpush : x ∈ _ := hinv2.vis_pushed x hx hvis
            rw [hinv2.push_split] at hpush
            rcases List.mem_append.mp hpush with h | h
            · rw [hpops2] at h
              rcases List.mem_append.mp h with h2 | h2
              · exact absurd (hinv.pops_vis x h2) hxold
              · exact absurd (List.mem_singleton.mp h2) hxv
            · exact h
      obtain ⟨ihinv, ihps, ihcl, ihseeds, ⟨lp, hlp⟩, ⟨lu, hlu⟩, ⟨le2, hle⟩,
        ihmv, ihme⟩ := ih _ hinv2 hps2 hcl2
      refine ⟨ihinv, ihps, ihcl, ihseeds.trans hseeds2, ?_, ?_, ?_, ?_, ?_⟩
      · refine ⟨[v] ++ lp, ?_⟩
        rw [hlp, hpops2]
        show (s.pops ++ [v]) ++ lp = s.pops ++ ([v] ++ lp)
        rw [List.append_assoc]
      · refine ⟨p2 ++ lu, ?_⟩
        rw [hlu, hp2]
        show (s.pushes ++ p2) ++ lu = s.pushes ++ (p2 ++ lu)
        rw [List.append_assoc]
      · refine ⟨v2 ++ le2, ?_⟩
        rw [hle, hv2]
        show (s.events ++ v2) ++ le2 = s.events ++ (v2 ++ le2)
        rw [List.append_assoc]
      · intro x hx
        exact ihmv x (hmv2 x hx)
      · intro k hk
        have ha := hme2 k hk
        have hb : ((adjGet g v).foldl (scanEdge v)
            { s with queue := rest, pops := s.pops ++ [v] }).edge_labels k ≠
            ELabel.unexplored := by
          rw [ha]
          exact hk
        rw [ihme k hb, ha]

/-- Starting a component traversal from a still-unexplored seed `x`
preserves all invariants, drains the queue, and completes the component:
every vertex reachable from `x` ends up VISITED. -/
theorem bfsComponent_inv {g : Graph} (hWF : WF g) {s : BFSState} {x : Nat}
    {t : BFSState}
    (ht : t = bfsComponent g { s with seeds := s.seeds ++ [x] } x)
    (hinv : Inv g s) (hps : PopsScanned g s) (hcl : Closed g s)
    (hq : s.queue = []) (hx : x ∈ g.verts)
    (hxl : s.vertex_labels x = VLabel.unexplored) :
    Inv g t ∧ PopsScanned g t ∧ Closed g t ∧ t.queue = [] ∧
    t.seeds = s.seeds ++ [x] ∧
    (∃ l, t.pops = s.pops ++ l) ∧ (∃ l, t.pushes = s.pushes ++ l) ∧
    (∃ l, t.events = s.events ++ l) ∧
    (∀ y, s.vertex_labels y = VLabel.visited →
      t.vertex_labels y = VLabel.visited) ∧
    (∀ k, s.edge_labels k ≠ ELabel.unexplored →
      t.edge_labels k = s.edge_labels k) ∧
    (∀ y, Reach g x y → t.vertex_labels y = VLabel.visited) := by
  have hxnp : x ∉ s.pushes := by
    intro hmem
    rw [hinv.push_split, hq, List.append_nil] at hmem
    rw [hinv.pops_vis x hmem] at hxl
    cases hxl
  have hinvB : Inv g
      { vertex_labels := updV s.vertex_labels x VLabel.visited,
        edge_labels := s.edge_labels, queue := [x], pops := s.pops,
        pushes := s.pushes ++ [x], events := s.events,
        seeds := s.seeds ++ [x] } := by
    refine ⟨?_, ?_, ?_, ?_, ?_, ?_, ?_, ?_, ?_, ?_, ?_, ?_, ?_, ?_, ?_, ?_⟩
    · show s.pushes ++ [x] = s.pops ++ [x]
      rw [hinv.push_split, hq, List.append_nil]
    · intro z hz
      have hzx := List.mem_singleton.mp hz
      subst hzx
      exact updV_self _ _ _
    · intro z hz
      exact updV_mono (hinv.pops_vis z hz)
    · show (s.pushes ++ [x]).Nodup
      rw [List.nodup_append]
      exact ⟨hinv.pushes_nodup, List.nodup_singleton _,
        fun a ha hb => hxnp ((List.mem_singleton.mp hb) ▸ ha)⟩
    · intro z hz
      rcases List.mem_append.mp hz with h | h
      · exact hinv.pushes_verts z h
      · rw [List.mem_singleton.mp h]
        exact hx
    · intro z hz hvis
      have hvis2 : updV s.vertex_labels x VLabel.visited z = VLabel.visited :=
        hvis
      by_cases hzx : z = x
      · exact List.mem_append_right _ (List.mem_singleton.mpr hzx)
      · rw [updV_other _ _ _ hzx] at hvis2
        exact List.mem_append_left _ (hinv.vis_pushed z hz hvis2)
    · intro e2 he2 hlab
      have hlab2 : s.edge_labels (ekey e2) ≠ ELabel.unexplored := hlab
      have := hinv.lab_vis e2 he2 hlab2
      exact ⟨updV_mono this.1, updV_mono this.2⟩
    · exact hinv.ev_match
    · exact hinv.ev_lab
    · exact hinv.ev_nodup
    · exact hinv.ev_key
    · exact hinv.ev_w
    · exact hinv.ev_disc_proper
    · exact hinv.lab_ev
    · show (s.pushes ++ [x]).Perm ((s.seeds ++ [x]) ++ _)
      refine (hinv.push_perm.append_right [x]).trans ?_
      rw [List.append_assoc, List.append_assoc]
      exact List.Perm.append_left _ List.perm_append_comm
    · intro z hz
      rcases List.mem_append.mp hz with h | h
      · obtain ⟨x0, hx0, hr⟩ := hinv.push_reach z h
        exact ⟨x0, List.mem_append_left _ hx0, hr⟩
      · rw [List.mem_singleton.mp h]
        exact ⟨x, List.mem_append_right _ (List.mem_singleton.mpr rfl),
          Reach.refl x⟩
  have hpsB : PopsScanned g
      { vertex_labels := updV s.vertex_labels x VLabel.visited,
        edge_labels := s.edge_labels, queue := [x], pops := s.pops,
        pushes := s.pushes ++ [x], events := s.events,
        seeds := s.seeds ++ [x] } := hps
  have hclB : Closed g
      { vertex_labels := updV s.vertex_labels x VLabel.visited,
        edge_labels := s.edge_labels, queue := [x], pops := s.pops,
        pushes := s.pushes ++ [x], events := s.events,
        seeds := s.seeds ++ [x] } := by
    intro z hz hvis
    have hvis2 : updV s.vertex_labels x VLabel.visited z = VLabel.visited := hvis
    by_cases hzx : z = x
    · left
      exact List.mem_singleton.mpr hzx
    · rw [updV_other _ _ _ hzx] at hvis2
      rcases hcl z hz hvis2 with hmem | hnb
      · rw [hq] at hmem
        cases hmem
      · right
        intro y hy
        exact updV_mono (hnb y hy)
  obtain ⟨linv, lps, lcl, lseeds, ⟨lp, hlp⟩, ⟨lu, hlu⟩, ⟨le2, hle⟩, lmv, lme⟩ :=
    bfsLoop_inv hWF (compFuel g)
      { vertex_labels := updV s.vertex_labels x VLabel.visited,
        edge_labels := s.edge_labels, queue := [x], pops := s.pops,
        pushes := s.pushes ++ [x], events := s.events,
        seeds := s.seeds ++ [x] } hinvB hpsB hclB
  have hdrain : (bfsLoop g (compFuel g)
      { vertex_labels := updV s.vertex_labels x VLabel.visited,
        edge_labels := s.edge_labels, queue := [x], pops := s.pops,
        pushes := s.pushes ++ [x], events := s.events,
        seeds := s.seeds ++ [x] }).queue = [] := by
    apply bfsLoop_drain
    have h1 := Ucount_le g
      { vertex_labels := updV s.vertex_labels x VLabel.visited,
        edge_labels := s.edge_labels, queue := [x], pops := s.pops,
        pushes := s.pushes ++ [x], events := s.events,
        seeds := s.seeds ++ [x] }
    show ([x] : List Nat).length + _ ≤ compFuel g
    unfold compFuel
    simp only [List.length_singleton]
    omega
  have hteq : t = bfsLoop g (compFuel g)
      { vertex_labels := updV s.vertex_labels x VLabel.visited,
        edge_labels := s.edge_labels, queue := [x], pops := s.pops,
        pushes := s.pushes ++ [x], events := s.events,
        seeds := s.seeds ++ [x] } := ht
  subst hteq
  have hxvis : (bfsLoop g (compFuel g)
      { vertex_labels := updV s.vertex_labels x VLabel.visited,
        edge_labels := s.edge_labels, queue := [x], pops := s.pops,
        pushes := s.pushes ++ [x], events := s.events,
        seeds := s.seeds ++ [x] }).vertex_labels x = VLabel.visited :=
    lmv x (updV_self _ _ _)
  refine ⟨linv, lps, lcl, hdrain, lseeds, ⟨lp, hlp⟩, ⟨[x] ++ lu, ?_⟩,
    ⟨le2, hle⟩, ?_, ?_, ?_⟩
  · rw [hlu]
    show (s.pushes ++ [x]) ++ lu = s.pushes ++ ([x] ++ lu)
    rw [List.append_assoc]
  · intro y hy
    exact lmv y (updV_mono hy)
  · intro k hk
    exact lme k hk
  · intro y hy
    induction hy with
    | refl => exact hxvis
    | tail hxb hby ihv =>
      rename_i b c
      have hb : b ∈ g.verts := adjRel_mem_right hWF (adjRel_symm hby)
      rcases lcl b hb ihv with hmem | hnb
      · rw [hdrain] at hmem
        cases hmem
      · exact hnb c hby

/-! ### The whole run -/

theorem bfsRun_fold {g : Graph} (hWF : WF g) :
    ∀ (l : List Nat) (s : BFSState), (∀ v ∈ l, v ∈ g.verts) → RunInv g s →
    RunInv g (l.foldl
      (fun s v => if s.vertex_labels v = VLabel.unexplored
        then bfsComponent g { s with seeds := s.seeds ++ [v] } v else s) s) ∧
    (∀ y, s.vertex_labels y = VLabel.visited →
      (l.foldl
        (fun s v => if s.vertex_labels v = VLabel.unexplored
          then bfsComponent g { s with seeds := s.seeds ++ [v] } v else s)
        s).vertex_labels y = VLabel.visited) ∧
    (∀ v ∈ l, (l.foldl
      (fun s v => if s.vertex_labels v = VLabel.unexplored
        then bfsComponent g { s with seeds := s.seeds ++ [v] } v else s)
      s).vertex_labels v = VLabel.visited) := by
  intro l
  induction l with
  | nil =>
    intro s hl hrun
    exact ⟨hrun, fun y hy => hy, fun v hv => absurd hv (by simp)⟩
  | cons v vs ih =>
    intro s hl hrun
    obtain ⟨hinv, hps, hcl, hq, hsv, hsc, hsf⟩ := hrun
    rw [List.foldl_cons]
    by_cases hv : s.vertex_labels v = VLabel.unexplored
    · rw [if_pos hv]
      obtain ⟨tinv, tps, tcl, tq, tseeds, -, -, -, tmv, -, tcomp⟩ :=
        bfsComponent_inv hWF rfl hinv hps hcl hq
          (hl v (List.mem_cons_self _ _)) hv
      have trun : RunInv g
          (bfsComponent g { s with seeds := s.seeds ++ [v] } v) := by
        refine ⟨tinv, tps, tcl, tq, ?_, ?_, ?_⟩
        · intro z hz
          rw [tseeds] at hz
          rcases List.mem_append.mp hz with h | h
          · exact hsv z h
          · rw [List.mem_singleton.mp h]
            exact hl v (List.mem_cons_self _ _)
        · intro z hz y hy
          rw [tseeds] at hz
          rcases List.mem_append.mp hz with h | h
          · exact tmv y (hsc z h y hy)
          · have hzv := List.mem_singleton.mp h
            subst hzv
            exact tcomp y hy
        · intro z1 hz1 z2 hz2 hr
          rw [tseeds] at hz1 hz2
          rcases List.mem_append.mp hz1 with h1 | h1 <;>
            rcases List.mem_append.mp hz2 with h2 | h2
          · exact hsf z1 h1 z2 h2 hr
          · exfalso
            have := List.mem_singleton.mp h2
            subst this
            rw [hsc z1 h1 z2 hr] at hv
            cases hv
          · exfalso
            have := List.mem_singleton.mp h1
            subst this
            rw [hsc z2 h2 z1 hr.symm] at hv
            cases hv
          · rw [List.mem_singleton.mp h1, List.mem_singleton.mp h2]
      obtain ⟨ihrun, ihmono, ihall⟩ :=
        ih (bfsComponent g { s with seeds := s.seeds ++ [v] } v)
          (fun z hz => hl z (List.mem_cons_of_mem _ hz)) trun
      refine ⟨ihrun, ?_, ?_⟩
      · intro y hy
        exact ihmono y (tmv y hy)
      · intro z hz
        rcases List.mem_cons.mp hz with h | h
        · subst h
          exact ihmono z (tcomp z (Reach.refl z))
        · exact ihall z h
    · rw [if_neg hv]
      obtain ⟨ihrun, ihmono, ihall⟩ :=
        ih s (fun z hz => hl z (List.mem_cons_of_mem _ hz))
          ⟨hinv, hps, hcl, hq, hsv, hsc, hsf⟩
      refine ⟨ihrun, ihmono, ?_⟩
      intro z hz
      rcases List.mem_cons.mp hz with h | h
      · subst h
        exact ihmono z (VLabel.not_unexplored hv)
      · exact ihall z h

/-- After a complete `bfs()` run on a well-formed graph, the run invariant
holds and every vertex of the graph is VISITED. -/
theorem bfsRun_inv {g : Graph} (hWF : WF g) (vl : Nat → VLabel)
    (el : Nat × Nat → ELabel) :
    RunInv g (bfsRun g vl el) ∧
    ∀ v ∈ g.verts, (bfsRun g vl el).vertex_labels v = VLabel.visited := by
  have h0 : RunInv g
      { vertex_labels := initV g vl, edge_labels := initE g el,
        queue := [], pops := [], pushes := [], events := [], seeds := [] } := by
    refine ⟨⟨?_, ?_, ?_, ?_, ?_, ?_, ?_, ?_, ?_, ?_, ?_, ?_, ?_, ?_, ?_, ?_⟩,
      ?_, ?_, ?_, ?_, ?_, ?_⟩
    · rfl
    · intro z hz
      cases hz
    · intro z hz
      cases hz
    · exact List.nodup_nil
    · intro z hz
      cases hz
    · intro z hz hvis
      have hvis2 : initV g vl z = VLabel.visited := hvis
      rw [initV_mem vl hz] at hvis2
      cases hvis2
    · intro e he hlab
      exact absurd (initE_mem el he) hlab
    · intro ev hev
      cases hev
    · intro ev hev
      cases hev
    · exact List.nodup_nil
    · intro ev hev
      cases hev
    · intro ev hev
      cases hev
    · intro ev hev
      cases hev
    · intro e he hlab
      exact absurd (initE_mem el he) hlab
    · exact List.Perm.refl _
    · intro y hy
      cases hy
    · intro z hz e he
      cases hz
    · intro z hz hvis
      have hvis2 : initV g vl z = VLabel.visited := hvis
      rw [initV_mem vl hz] at hvis2
      cases hvis2
    · rfl
    · intro z hz
      cases hz
    · intro z hz
      cases hz
    · intro z1 hz1
      cases hz1
  exact ⟨(bfsRun_fold hWF g.verts _ (fun v hv => hv) h0).1,
    (bfsRun_fold hWF g.verts _ (fun v hv => hv) h0).2.2⟩

/-- Every edge value of the graph is classified by the end of the run. -/
theorem bfs_edge_labeled {g : Graph} (hWF : WF g) (vl : Nat → VLabel)
    (el : Nat × Nat → ELabel) :
    ∀ e ∈ edgeObjects g,
      (bfsRun g vl el).edge_labels (ekey e) ≠ ELabel.unexplored := by
  obtain ⟨⟨rinv, rps, rcl, rq, -, -, -⟩, hall⟩ := bfsRun_inv hWF vl el
  intro e he
  have hsrc : e.src ∈ g.verts := (hWF.ends_mem e he).1
  have hpush : e.src ∈ (bfsRun g vl el).pushes :=
    rinv.vis_pushed _ hsrc (hall _ hsrc)
  have hpop : e.src ∈ (bfsRun g vl el).pops := by
    rw [rinv.push_split, rq, List.append_nil] at hpush
    exact hpush
  exact rps _ hpop e (hWF.both_lists e he).1

/-- A duplicate-free list whose members are all equal to one value has at
most one element. -/
theorem length_le_one_of_nodup_const {α : Type} {l : List α} {c : α}
    (hnd : l.Nodup) (hc : ∀ a ∈ l, a = c) : l.length ≤ 1 := by
  cases l with
  | nil => simp
  | cons a t =>
    cases t with
    | nil => simp
    | cons b t2 =>
      exfalso
      rw [List.nodup_cons] at hnd
      have ha := hc a (by simp)
      have hb := hc b (by simp)
      refine hnd.1 ?_
      rw [ha, hb]
      exact List.mem_cons_self _ _

/-- C1: for every (well-formed) graph, after a completed `bfs()` run every
vertex of the graph is labelled VISITED — none remains UNEXPLORED — and
every edge value of the graph is labelled DISCOVERY or CROSS — none
remains UNEXPLORED.  The initial contents `vl` / `el` of the label
dictionaries are arbitrary. -/
theorem bfs_coverage (g : Graph) (hWF : WF g) (vl : Nat → VLabel)
    (el : Nat × Nat → ELabel) :
    (∀ v ∈ g.verts, (bfsRun g vl el).vertex_labels v = VLabel.visited) ∧
    (∀ e ∈ edgeObjects g,
      (bfsRun g vl el).edge_labels (ekey e) = ELabel.discovery ∨
      (bfsRun g vl el).edge_labels (ekey e) = ELabel.cross) := by
  refine ⟨(bfsRun_inv hWF vl el).2, ?_⟩
  intro e he
  exact ELabel.settled (bfs_edge_labeled hWF vl el e he)

/-- Witness for C1 on the concrete one-edge graph 1-2. -/
theorem bfs_coverage_witness :
    WF g12 ∧
    ((∀ v ∈ g12.verts, (bfsRun g12 vl0 el0).vertex_labels v = VLabel.visited) ∧
    (∀ e ∈ edgeObjects g12,
      (bfsRun g12 vl0 el0).edge_labels (ekey e) = ELabel.discovery ∨
      (bfsRun g12 vl0 el0).edge_labels (ekey e) = ELabel.cross)) :=
  ⟨by decide, bfs_coverage g12 (by decide) vl0 el0⟩

/-- C3: during one `bfs()` run no vertex is ever enqueued twice: the log of
all enqueue operations (the seed enqueue of each `_bfs_component` plus
every discovery enqueue) is duplicate-free, because a vertex is labelled
VISITED at the moment it is enqueued and only UNEXPLORED vertices are
enqueued. -/
theorem bfs_no_duplicate_enqueue (g : Graph) (hWF : WF g) (vl : Nat → VLabel)
    (el : Nat × Nat → ELabel) : (bfsRun g vl el).pushes.Nodup :=
  ((bfsRun_inv hWF vl el).1).1.pushes_nodup

/-- Witness for C3 on the concrete one-edge graph 1-2. -/
theorem bfs_no_duplicate_enqueue_witness :
    WF g12 ∧ (bfsRun g12 vl0 el0).pushes.Nodup :=
  ⟨by decide, bfs_no_duplicate_enqueue g12 (by decide) vl0 el0⟩

/-- C7: vertices are dequeued in enqueue (discovery) order — the pop log
equals the push log, which is the FIFO guarantee — and on the concrete
path graph 1-2-3-4 with seed 1 the vertices are popped in the order
1, 2, 3, 4, with one single component, 3 DISCOVERY classifications and
no CROSS classification. -/
theorem bfs_fifo_order :
    (∀ (g : Graph), WF g → ∀ (vl : Nat → VLabel) (el : Nat × Nat → ELabel),
      (bfsRun g vl el).pops = (bfsRun g vl el).pushes) ∧
    ((bfsRun gPath vl0 el0).pops = [1, 2, 3, 4] ∧
     (bfsRun gPath vl0 el0).seeds = [1] ∧
     ((bfsRun gPath vl0 el0).events.filter
       (fun ev => decide (ev.lab = ELabel.discovery))).length = 3 ∧
     ((bfsRun gPath vl0 el0).events.filter
       (fun ev => decide (ev.lab = ELabel.cross))).length = 0) := by
  constructor
  · intro g hWF vl el
    obtain ⟨⟨rinv, -, -, rq, -, -, -⟩, -⟩ := bfsRun_inv hWF vl el
    exact (rinv.push_split.trans (by rw [rq, List.append_nil])).symm
  · exact ⟨by decide, by decide, by decide, by decide⟩

/-- Witness for the universally quantified FIFO part of C7. -/
theorem bfs_fifo_order_witness :
    WF g12 ∧ (bfsRun g12 vl0 el0).pops = (bfsRun g12 vl0 el0).pushes :=
  ⟨by decide, bfs_fifo_order.1 g12 (by decide) vl0 el0⟩

/-- C6: a self-loop edge is classified exactly once, as CROSS — its vertex
is already VISITED when the loop edge is scanned — and it never causes its
vertex to be enqueued a second time (the vertex appears at most once in
the enqueue log). -/
theorem bfs_self_loop_cross (g : Graph) (hWF : WF g) (e : Edge)
    (he : e ∈ edgeObjects g) (hself : e.src = e.dst) (vl : Nat → VLabel)
    (el : Nat × Nat → ELabel) :
    (bfsRun g vl el).edge_labels (ekey e) = ELabel.cross ∧
    ((bfsRun g vl el).events.filter
      (fun ev => decide (ev.k = ekey e))).length = 1 ∧
    (bfsRun g vl el).pushes.count e.src ≤ 1 := by
  obtain ⟨⟨rinv, rps, rcl, rq, -, -, -⟩, hall⟩ := bfsRun_inv hWF vl el
  have hlab := bfs_edge_labeled hWF vl el e he
  have hnotdisc : (bfsRun g vl el).edge_labels (ekey e) ≠ ELabel.discovery := by
    intro hd
    obtain ⟨ev, hev, hk, hl⟩ := rinv.lab_ev e he hlab
    rw [hd] at hl
    have hproper := rinv.ev_disc_proper ev hev hl
    apply hproper
    rw [hk, ekey_fst, ekey_snd, hself]
    simp
  refine ⟨(ELabel.settled hlab).resolve_left hnotdisc, ?_, ?_⟩
  · obtain ⟨ev0, hev0, hk0, -⟩ := rinv.lab_ev e he hlab
    have hnd : ((bfsRun g vl el).events.filter
        (fun ev => decide (ev.k = ekey e))).map Event.k |>.Nodup :=
      ((List.filter_sublist _).map Event.k).nodup rinv.ev_nodup
    have hconst : ∀ a ∈ ((bfsRun g vl el).events.filter
        (fun ev => decide (ev.k = ekey e))).map Event.k, a = ekey e := by
      intro a ha
      obtain ⟨ev, hev, hevk⟩ := List.mem_map.mp ha
      have := List.of_mem_filter hev
      rw [← hevk]
      exact of_decide_eq_true this
    have hle : (((bfsRun g vl el).events.filter
        (fun ev => decide (ev.k = ekey e))).map Event.k).length ≤ 1 :=
      length_le_one_of_nodup_const hnd hconst
    have hge : ev0 ∈ (bfsRun g vl el).events.filter
        (fun ev => decide (ev.k = ekey e)) :=
      List.mem_filter.mpr ⟨hev0, decide_eq_true hk0⟩
    have hge2 : 1 ≤ ((bfsRun g vl el).events.filter
        (fun ev => decide (ev.k = ekey e))).length :=
      List.length_pos.mpr (List.ne_nil_of_mem hge)
    rw [List.length_map] at hle
    omega
  · exact List.nodup_iff_count_le_one.mp rinv.pushes_nodup e.src

/-- Witness for C6 on the concrete self-loop graph 5-5. -/
theorem bfs_self_loop_cross_witness :
    (WF gLoop ∧ (⟨0, 5, 5⟩ : Edge) ∈ edgeObjects gLoop ∧
      (⟨0, 5, 5⟩ : Edge).src = (⟨0, 5, 5⟩ : Edge).dst) ∧
    ((bfsRun gLoop vl0 el0).edge_labels (ekey ⟨0, 5, 5⟩) = ELabel.cross ∧
    ((bfsRun gLoop vl0 el0).events.filter
      (fun ev => decide (ev.k = ekey ⟨0, 5, 5⟩))).length = 1 ∧
    (bfsRun gLoop vl0 el0).pushes.count (⟨0, 5, 5⟩ : Edge).src ≤ 1) :=
  ⟨⟨by decide, by decide, by decide⟩,
    bfs_self_loop_cross gLoop (by decide) ⟨0, 5, 5⟩ (by decide) (by decide)
      vl0 el0⟩

/-- C2: in every connected component `K` (with `n = K.length` vertices) of
a well-formed graph, after `bfs()` exactly `n - 1` distinct edge values
with both endpoints in `K` carry the label DISCOVERY — whatever the seed
order and adjacency order encoded in the graph value — and every other
edge inside the component carries CROSS. -/
theorem bfs_spanning_tree (g : Graph) (hWF : WF g) (u : Nat) (hu : u ∈ g.verts)
    (K : List Nat) (hK : IsComponent g u K) (vl : Nat → VLabel)
    (el : Nat × Nat → ELabel) :
    ((edges g).filter (fun e => decide (e.src ∈ K ∧ e.dst ∈ K ∧
      (bfsRun g vl el).edge_labels (ekey e) = ELabel.discovery))).length =
      K.length - 1 ∧
    (∀ e ∈ edgeObjects g, e.src ∈ K →
      (bfsRun g vl el).edge_labels (ekey e) ≠ ELabel.discovery →
      (bfsRun g vl el).edge_labels (ekey e) = ELabel.cross) := by
  obtain ⟨⟨rinv, rps, rcl, rq, rsv, rsc, rsf⟩, hall⟩ := bfsRun_inv hWF vl el
  obtain ⟨hKnd, hKmem⟩ := hK
  refine ⟨?_, ?_⟩
  swap
  · intro e he _ hnd
    exact (ELabel.settled (bfs_edge_labeled hWF vl el e he)).resolve_left
      hnd
  have hKadj : ∀ a ∈ K, ∀ b, adjRel g a b → b ∈ K := by
    intro a ha b hab
    obtain ⟨hav, hra⟩ := (hKmem a).mp ha
    exact (hKmem b).mpr ⟨adjRel_mem_right hWF hab, hra.tail hab⟩
  have hKpush : ∀ y ∈ K, y ∈ (bfsRun g vl el).pushes := by
    intro y hy
    obtain ⟨hyv, -⟩ := (hKmem y).mp hy
    exact rinv.vis_pushed y hyv (hall y hyv)
  set F := bfsRun g vl el with hF
  set A := (edges g).filter (fun e => decide (e.src ∈ K ∧ e.dst ∈ K ∧
      F.edge_labels (ekey e) = ELabel.discovery)) with hA
  set B := F.events.filter (fun ev => decide (ev.lab = ELabel.discovery ∧
      ev.k.1 ∈ K ∧ ev.k.2 ∈ K)) with hB
  have hAnd : (A.map ekey).Nodup :=
    ((List.filter_sublist _).map ekey).nodup (edges_keys_nodup g)
  have hBnd : (B.map Event.k).Nodup :=
    ((List.filter_sublist _).map Event.k).nodup rinv.ev_nodup
  have hABmem : ∀ κ, κ ∈ A.map ekey ↔ κ ∈ B.map Event.k := by
    intro κ
    constructor
    · intro hκ
      obtain ⟨e, heA, hek⟩ := List.mem_map.mp hκ
      have heF := List.mem_filter.mp heA
      obtain ⟨hsrc, hdst, hdisc⟩ := of_decide_eq_true heF.2
      have heobj : e ∈ edgeObjects g := edges_sub heF.1
      have hlabne : F.edge_labels (ekey e) ≠ ELabel.unexplored := by
        rw [hdisc]
        intro hc
        cases hc
      obtain ⟨ev, hev, hk, hl⟩ := rinv.lab_ev e heobj hlabne
      rw [hdisc] at hl
      refine List.mem_map.mpr ⟨ev, List.mem_filter.mpr ⟨hev, ?_⟩,
        by rw [hk, hek]⟩
      apply decide_eq_true
      refine ⟨hl, ?_, ?_⟩
      · rw [hk]
        rcases ekey_cases e with ⟨h1, -⟩ | ⟨h1, -⟩
        · rw [h1]
          exact hsrc
        · rw [h1]
          exact hdst
      · rw [hk]
        rcases ekey_cases e with ⟨-, h2⟩ | ⟨-, h2⟩
        · rw [h2]
          exact hdst
        · rw [h2]
          exact hsrc
    · intro hκ
      obtain ⟨ev, hevB, hevk⟩ := List.mem_map.mp hκ
      have hevF := List.mem_filter.mp hevB
      obtain ⟨hl, hk1, hk2⟩ := of_decide_eq_true hevF.2
      obtain ⟨e0, he0, hk0⟩ := rinv.ev_key ev hevF.1
      have hkedges : ev.k ∈ (edges g).map ekey := by
        rw [edges_keys]
        exact List.mem_map.mpr ⟨e0, he0, hk0⟩
      obtain ⟨e1, he1, hk1'⟩ := List.mem_map.mp hkedges
      have hdisc : F.edge_labels (ekey e1) = ELabel.discovery := by
        rw [hk1', rinv.ev_match ev hevF.1, hl]
      refine List.mem_map.mpr ⟨e1, List.mem_filter.mpr ⟨he1, ?_⟩,
        by rw [hk1', ← hevk]⟩
      apply decide_eq_true
      refine ⟨?_, ?_, hdisc⟩
      · rcases ekey_cases e1 with ⟨h1, -⟩ | ⟨-, h2⟩
        · rw [← h1, hk1']
          exact hk1
        · rw [← h2, hk1']
          exact hk2
      · rcases ekey_cases e1 with ⟨-, h2⟩ | ⟨h1, -⟩
        · rw [← h2, hk1']
          exact hk2
        · rw [← h1, hk1']
          exact hk1
  have hAB : A.length = B.length := by
    have hperm := (List.perm_ext_iff_of_nodup hAnd hBnd).mpr hABmem
    have hlen := hperm.length_eq
    rw [List.length_map, List.length_map] at hlen
    exact hlen
  have hBc : B.length = F.events.countP
      (fun ev => decide (ev.lab = ELabel.discovery ∧
        ev.k.1 ∈ K ∧ ev.k.2 ∈ K)) := by
    rw [List.countP_eq_length_filter]
  have hstep2 : F.events.countP
      (fun ev => decide (ev.lab = ELabel.discovery ∧
        ev.k.1 ∈ K ∧ ev.k.2 ∈ K)) =
      F.events.countP
        (fun ev => decide (ev.lab = ELabel.discovery) &&
          decide (ev.w ∈ K)) := by
    apply List.countP_congr
    intro ev hev
    simp only [Bool.and_eq_true, decide_eq_true_eq]
    constructor
    · rintro ⟨hl, hka, hkb⟩
      refine ⟨hl, ?_⟩
      rcases rinv.ev_w ev hev with h | h
      · rw [h]
        exact hka
      · rw [h]
        exact hkb
    · rintro ⟨hl, hwK⟩
      obtain ⟨e0, he0, hk0⟩ := rinv.ev_key ev hev
      have hadj : adjRel g ev.k.1 ev.k.2 := by
        refine ⟨e0, he0, ?_⟩
        rcases ekey_cases e0 with ⟨h1, h2⟩ | ⟨h1, h2⟩
        · refine Or.inl ⟨?_, ?_⟩
          · rw [← hk0]
            exact h1.symm
          · rw [← hk0]
            exact h2.symm
        · refine Or.inr ⟨?_, ?_⟩
          · rw [← hk0]
            exact h2.symm
          · rw [← hk0]
            exact h1.symm
      have hk12 : ev.k.1 ∈ K ∧ ev.k.2 ∈ K := by
        rcases rinv.ev_w ev hev with h | h
        · have h1 : ev.k.1 ∈ K := h ▸ hwK
          exact ⟨h1, hKadj _ h1 _ hadj⟩
        · have h2 : ev.k.2 ∈ K := h ▸ hwK
          exact ⟨hKadj _ h2 _ (adjRel_symm hadj), h2⟩
      exact ⟨hl, hk12.1, hk12.2⟩
  have hstep3 : ((F.events.filter
      (fun ev => decide (ev.lab = ELabel.discovery))).map Event.w).countP
        (fun z => decide (z ∈ K)) =
      F.events.countP
        (fun ev => decide (ev.lab = ELabel.discovery) &&
          decide (ev.w ∈ K)) := by
    rw [List.countP_map, List.countP_filter]
    apply List.countP_congr
    intro ev hev
    simp only [Function.comp, Bool.and_eq_true, decide_eq_true_eq]
    exact and_comm
  have hstep4 : F.pushes.countP (fun z => decide (z ∈ K)) =
      F.seeds.countP (fun z => decide (z ∈ K)) +
      ((F.events.filter
        (fun ev => decide (ev.lab = ELabel.discovery))).map Event.w).countP
          (fun z => decide (z ∈ K)) := by
    rw [rinv.push_perm.countP_eq, List.countP_append]
  have hstep5 : F.pushes.countP (fun z => decide (z ∈ K)) = K.length := by
    rw [List.countP_eq_length_filter]
    have hnd : (F.pushes.filter (fun z => decide (z ∈ K))).Nodup :=
      (List.filter_sublist _).nodup rinv.pushes_nodup
    have hmem : ∀ z, z ∈ F.pushes.filter (fun z => decide (z ∈ K)) ↔
        z ∈ K := by
      intro z
      rw [List.mem_filter]
      constructor
      · rintro ⟨-, h⟩
        exact of_decide_eq_true h
      · intro h
        exact ⟨hKpush z h, decide_eq_true h⟩
    exact ((List.perm_ext_iff_of_nodup hnd hKnd).mpr hmem).length_eq
  have hseednd : F.seeds.Nodup := by
    have hnd2 := (rinv.push_perm.nodup_iff).mp rinv.pushes_nodup
    exact (List.nodup_append.mp hnd2).1
  obtain ⟨x0, hx0s, hx0r⟩ :=
    rinv.push_reach u (hKpush u ((hKmem u).mpr ⟨hu, Reach.refl u⟩))
  have hx0K : x0 ∈ K := (hKmem x0).mpr ⟨rsv x0 hx0s, hx0r.symm⟩
  have huniq : ∀ z ∈ F.seeds, z ∈ K → z = x0 := by
    intro z hzs hzK
    obtain ⟨-, hruz⟩ := (hKmem z).mp hzK
    exact rsf z hzs x0 hx0s (hruz.symm.trans hx0r.symm)
  have hstep6 : F.seeds.countP (fun z => decide (z ∈ K)) = 1 := by
    rw [List.countP_eq_length_filter]
    have hnd : (F.seeds.filter (fun z => decide (z ∈ K))).Nodup :=
      (List.filter_sublist _).nodup hseednd
    have hconst : ∀ a ∈ F.seeds.filter (fun z => decide (z ∈ K)), a = x0 := by
      intro a ha
      have h2 := List.mem_filter.mp ha
      exact huniq a h2.1 (of_decide_eq_true h2.2)
    have hle := length_le_one_of_nodup_const hnd hconst
    have hmem : x0 ∈ F.seeds.filter (fun z => decide (z ∈ K)) :=
      List.mem_filter.mpr ⟨hx0s, decide_eq_true hx0K⟩
    have hge := List.length_pos.mpr (List.ne_nil_of_mem hmem)
    omega
  show A.length = K.length - 1
  omega

/-- The two-vertex graph 1-2 is one single component of its vertex 1. -/
theorem g12_comp : IsComponent g12 1 [1, 2] := by
  constructor
  · decide
  · intro y
    constructor
    · intro hy
      rcases List.mem_cons.mp hy with h | h
      · subst h
        exact ⟨by decide, Reach.refl 1⟩
      · have h2 := List.mem_singleton.mp h
        subst h2
        refine ⟨by decide, Relation.ReflTransGen.single ?_⟩
        exact ⟨⟨0, 1, 2⟩, by decide, Or.inl ⟨rfl, rfl⟩⟩
    · rintro ⟨hv, -⟩
      have hverts : g12.verts = [1, 2] := by decide
      rw [hverts] at hv
      exact hv

/-- Witness for C2 on the concrete one-edge graph 1-2 with component
[1, 2]. -/
theorem bfs_spanning_tree_witness :
    (WF g12 ∧ 1 ∈ g12.verts ∧ IsComponent g12 1 [1, 2]) ∧
    (((edges g12).filter (fun e => decide (e.src ∈ [1, 2] ∧ e.dst ∈ [1, 2] ∧
      (bfsRun g12 vl0 el0).edge_labels (ekey e) = ELabel.discovery))).length =
      ([1, 2] : List Nat).length - 1 ∧
    (∀ e ∈ edgeObjects g12, e.src ∈ [1, 2] →
      (bfsRun g12 vl0 el0).edge_labels (ekey e) ≠ ELabel.discovery →
      (bfsRun g12 vl0 el0).edge_labels (ekey e) = ELabel.cross)) :=
  ⟨⟨by decide, by decide, g12_comp⟩,
    bfs_spanning_tree g12 (by decide) 1 (by decide) [1, 2] g12_comp vl0 el0⟩

/-- C4 counterexample: `opposite(v, e)` called with a vertex that is not an
endpoint of `e` does not signal an error.  On the edge 1-2 and the
non-endpoint vertex 5 it silently returns the first endpoint 1 — the
Python body `return v2 if v1 == v else v1` cannot raise — contradicting
the claim that such a call fails fast rather than returning a vertex. -/
theorem opposite_non_endpoint :
    opposite 5 ⟨0, 1, 2⟩ = 1 ∧ (5 : Nat) ≠ (⟨0, 1, 2⟩ : Edge).src ∧
    (5 : Nat) ≠ (⟨0, 1, 2⟩ : Edge).dst := by decide

/-- C4 amended: `opposite(v, e)` never signals an error.  When `v` equals
the first endpoint it returns the second endpoint; in every other case —
including when `v` is not an endpoint of `e` at all — it returns the
first endpoint.  In particular, for an endpoint `v` it does return the
other endpoint, as claimed. -/
theorem opposite_total (v : Nat) (e : Edge) :
    (v = e.src → opposite v e = e.dst) ∧
    (v ≠ e.src → opposite v e = e.src) ∧
    (v = e.dst → v ≠ e.src → opposite v e = e.src) := by
  refine ⟨?_, ?_, ?_⟩
  · intro h
    unfold opposite
    rw [if_pos h.symm]
  · intro h
    unfold opposite
    rw [if_neg (fun hc => h hc.symm)]
  · intro _ h
    unfold opposite
    rw [if_neg (fun hc => h hc.symm)]

/-- Witness for the amended C4: the non-endpoint call returns the first
endpoint. -/
theorem opposite_total_witness :
    ((5 : Nat) ≠ (⟨0, 1, 2⟩ : Edge).src) ∧ opposite 5 ⟨0, 1, 2⟩ =
      (⟨0, 1, 2⟩ : Edge).src :=
  ⟨by decide, (opposite_total 5 ⟨0, 1, 2⟩).2.1 (by decide)⟩

/-- `insert_vertex` on an element that is already present returns the
graph unchanged. -/
theorem insertVertex_of_mem {g : Graph} {x : Nat} (h : x ∈ g.verts) :
    insertVertex g x = g := by
  unfold insertVertex
  rw [if_pos h]

/-- C9: `insert_vertex` is idempotent — inserting the same element twice
equals inserting it once; if a vertex with an equal element already
exists the graph is returned entirely unchanged (vertex set and adjacency
lists untouched, no error); otherwise a new vertex with an empty incident
list is appended and returned. -/
theorem insertVertex_idempotent (g : Graph) (x : Nat) :
    insertVertex (insertVertex g x) x = insertVertex g x ∧
    (x ∈ g.verts → insertVertex g x = g) ∧
    (x ∉ g.verts → (insertVertex g x).verts = g.verts ++ [x] ∧
      (insertVertex g x).adj = g.adj ++ [(x, [])] ∧
      x ∈ (insertVertex g x).verts) := by
  refine ⟨insertVertex_of_mem (insertVertex_mem_self g x),
    fun h => insertVertex_of_mem h, ?_⟩
  intro h
  unfold insertVertex
  rw [if_neg h]
  refine ⟨rfl, rfl, ?_⟩
  show x ∈ g.verts ++ [x]
  exact List.mem_append_right _ (List.mem_singleton.mpr rfl)

/-- Witness for C9 on the concrete graph 1-2 and its existing vertex 1. -/
theorem insertVertex_idempotent_witness :
    (1 ∈ g12.verts) ∧ insertVertex g12 1 = g12 :=
  ⟨by decide, (insertVertex_idempotent g12 1).2.1 (by decide)⟩

/-- C5 counterexample: after the single call `insert_edge(0, 0)` the
self-loop edge object appears TWICE in the incident list of its unique
endpoint 0 — `insert_edge` appends the same object to `adjacency_map[v]`
and `adjacency_map[w]`, which is the same list — so it does not appear
exactly once per endpoint as the claim states. -/
theorem self_loop_incident_twice :
    (⟨0, 0, 0⟩ : Edge) ∈ edgeObjects (applyOps [GOp.addE 0 0]) ∧
    (adjGet (applyOps [GOp.addE 0 0]) 0).count ⟨0, 0, 0⟩ = 2 ∧
    ¬ (adjGet (applyOps [GOp.addE 0 0]) 0).count ⟨0, 0, 0⟩ = 1 := by decide

/-- C5 amended: after any sequence of `insert_vertex` / `insert_edge`
calls, every edge object with two distinct endpoints appears exactly once
in each endpoint's incident list and in no other vertex's list; a
self-loop object appears exactly twice in its single endpoint's incident
list (once per endpoint slot) and in no other vertex's list. -/
theorem edge_incidence_multiplicity (ops : List GOp) (e : Edge)
    (he : e ∈ edgeObjects (applyOps ops)) :
    (e.src ≠ e.dst →
      (adjGet (applyOps ops) e.src).count e = 1 ∧
      (adjGet (applyOps ops) e.dst).count e = 1 ∧
      ∀ u, u ≠ e.src → u ≠ e.dst → (adjGet (applyOps ops) u).count e = 0) ∧
    (e.src = e.dst →
      (adjGet (applyOps ops) e.src).count e = 2 ∧
      ∀ u, u ≠ e.src → (adjGet (applyOps ops) u).count e = 0) := by
  obtain ⟨-, -, -, h4⟩ := GraphInv_applyOps ops
  have base := h4 e he
  constructor
  · intro hne
    refine ⟨?_, ?_, ?_⟩
    · rw [base e.src]
      simp [hne]
    · rw [base e.dst]
      have hne2 : e.dst ≠ e.src := fun h => hne h.symm
      simp [hne2]
    · intro u hu1 hu2
      rw [base u]
      simp [hu1, hu2]
  · intro hself
    refine ⟨?_, ?_⟩
    · rw [base e.src]
      simp [hself]
    · intro u hu
      rw [base u]
      have hu2 : u ≠ e.dst := by rw [← hself]; exact hu
      simp [hu, hu2]

/-- Witness for the amended C5 on the single edge 1-2. -/
theorem edge_incidence_multiplicity_witness :
    ((⟨0, 1, 2⟩ : Edge) ∈ edgeObjects (applyOps [GOp.addE 1 2]) ∧
      (⟨0, 1, 2⟩ : Edge).src ≠ (⟨0, 1, 2⟩ : Edge).dst) ∧
    ((adjGet (applyOps [GOp.addE 1 2]) (⟨0, 1, 2⟩ : Edge).src).count
        ⟨0, 1, 2⟩ = 1 ∧
      (adjGet (applyOps [GOp.addE 1 2]) (⟨0, 1, 2⟩ : Edge).dst).count
        ⟨0, 1, 2⟩ = 1 ∧
      ∀ u, u ≠ (⟨0, 1, 2⟩ : Edge).src → u ≠ (⟨0, 1, 2⟩ : Edge).dst →
        (adjGet (applyOps [GOp.addE 1 2]) u).count ⟨0, 1, 2⟩ = 0) :=
  ⟨⟨by decide, by decide⟩,
    (edge_incidence_multiplicity [GOp.addE 1 2] ⟨0, 1, 2⟩ (by decide)).1
      (by decide)⟩

/-! ### Parallel edges between one pair of elements -/

theorem insertEdge_of_mem {g : Graph} {c d : Nat} (hc : c ∈ g.verts)
    (hd : d ∈ g.verts) :
    insertEdge g c d = { g with
      adj := adjApp (adjApp g.adj c ⟨g.nextEid, c, d⟩) d ⟨g.nextEid, c, d⟩,
      nextEid := g.nextEid + 1 } := by
  unfold insertEdge
  simp only [insertVertex_of_mem hc, insertVertex_of_mem hd]

theorem insertEdge_adjGet {g : Graph} (hg : GraphInv g) {c d : Nat}
    (hc : c ∈ g.verts) (hd : d ∈ g.verts) (u : Nat) :
    adjGet (insertEdge g c d) u =
      (adjGet g u ++ (if u = c then [⟨g.nextEid, c, d⟩] else [])) ++
        (if u = d then [⟨g.nextEid, c, d⟩] else []) := by
  have hcK : c ∈ g.adj.map Prod.fst := by rw [hg.1]; exact hc
  have hdK : d ∈ g.adj.map Prod.fst := by rw [hg.1]; exact hd
  have hdK2 : d ∈ (adjApp g.adj c ⟨g.nextEid, c, d⟩).map Prod.fst := by
    rw [adjApp_keys]
    exact hdK
  rw [insertEdge_of_mem hc hd]
  show aget (adjApp (adjApp g.adj c _) d _) u = _
  rw [aget_adjApp hdK2, aget_adjApp hcK]
  by_cases hud : u = d
  · by_cases huc : u = c
    · have hdc : d = c := by rw [← hud, huc]
      simp [adjGet, hud, huc, hdc]
    · have hdc : ¬ d = c := fun h => huc (hud.trans h)
      simp [adjGet, hud, hdc]
  · by_cases huc : u = c
    · have hcd : ¬ c = d := fun h => hud (huc.trans h)
      simp [adjGet, huc, hud, hcd]
    · simp [adjGet, hud, huc]

theorem insertEdge_objs {g : Graph} (hg : GraphInv g) {c d : Nat}
    (hc : c ∈ g.verts) (hd : d ∈ g.verts) (x : Edge) :
    x ∈ edgeObjects (insertEdge g c d) ↔
      (x ∈ edgeObjects g ∨ x = ⟨g.nextEid, c, d⟩) := by
  have hdK2 : d ∈ (adjApp g.adj c ⟨g.nextEid, c, d⟩).map Prod.fst := by
    rw [adjApp_keys, hg.1]
    exact hd
  rw [insertEdge_of_mem hc hd]
  show x ∈ ((adjApp (adjApp g.adj c _) d _).map Prod.snd).flatten ↔ _
  rw [adjApp_flat_mem]
  constructor
  · rintro (h | ⟨h, -⟩)
    · rcases adjApp_flat_mem.mp h with h2 | ⟨h2, -⟩
      · exact Or.inl h2
      · exact Or.inr h2
    · exact Or.inr h
  · rintro (h | h)
    · exact Or.inl (adjApp_flat_mem.mpr (Or.inl h))
    · exact Or.inr ⟨h, hdK2⟩

theorem insertEdge_verts {g : Graph} {c d : Nat} (hc : c ∈ g.verts)
    (hd : d ∈ g.verts) : (insertEdge g c d).verts = g.verts := by
  rw [insertEdge_of_mem hc hd]

theorem buildPar_applyOps (a b : Nat) (ops : List Bool) :
    buildPar a b ops = applyOps (ops.map
      (fun o => if o then GOp.addE a b else GOp.addE b a)) := by
  unfold buildPar applyOps
  suffices h : ∀ (l : List Bool) (g : Graph),
      l.foldl (fun g o => if o then insertEdge g a b else insertEdge g b a) g =
      (l.map (fun o => if o then GOp.addE a b else GOp.addE b a)).foldl
        applyOp g by
    exact h ops emptyGraph
  intro l
  induction l with
  | nil => intro g; rfl
  | cons o os ih =>
    intro g
    rw [List.map_cons, List.foldl_cons, List.foldl_cons, ih]
    congr 1
    cases o <;> rfl

theorem dedupByKey_const_seen :
    ∀ (l : List Edge) (κ : Nat × Nat) (seen : List (Nat × Nat)),
    (∀ e ∈ l, ekey e = κ) → κ ∈ seen → dedupByKey l seen = [] := by
  intro l
  induction l with
  | nil => intro κ seen _ _; rfl
  | cons e es ih =>
    intro κ seen hall hseen
    rw [dedupByKey, if_pos (by rw [hall e (List.mem_cons_self _ _)]; exact hseen)]
    exact ih κ seen (fun e2 he2 => hall e2 (List.mem_cons_of_mem _ he2)) hseen

theorem dedupByKey_const {l : List Edge} {κ : Nat × Nat}
    (hall : ∀ e ∈ l, ekey e = κ) (hne : l ≠ []) :
    (dedupByKey l []).length = 1 := by
  cases l with
  | nil => exact absurd rfl hne
  | cons e es =>
    rw [dedupByKey, if_neg (by simp)]
    have hes : dedupByKey es (ekey e :: []) = [] := by
      apply dedupByKey_const_seen es κ
      · intro e2 he2
        exact hall e2 (List.mem_cons_of_mem _ he2)
      · exact List.mem_singleton.mpr (hall e (List.mem_cons_self _ _)).symm
    rw [hes]
    rfl

theorem buildPar_step (a b : Nat) (hab : a ≠ b) :
    ∀ (l : List Bool) (g : Graph), GraphInv g → a ∈ g.verts → b ∈ g.verts →
    (∀ e ∈ edgeObjects g, ekey e = (min a b, max a b)) →
    GraphInv (l.foldl
      (fun g o => if o then insertEdge g a b else insertEdge g b a) g) ∧
    a ∈ (l.foldl
      (fun g o => if o then insertEdge g a b else insertEdge g b a) g).verts ∧
    b ∈ (l.foldl
      (fun g o => if o then insertEdge g a b else insertEdge g b a) g).verts ∧
    (adjGet (l.foldl
      (fun g o => if o then insertEdge g a b else insertEdge g b a) g) a).length =
      (adjGet g a).length + l.length ∧
    (adjGet (l.foldl
      (fun g o => if o then insertEdge g a b else insertEdge g b a) g) b).length =
      (adjGet g b).length + l.length ∧
    (∀ e ∈ edgeObjects (l.foldl
      (fun g o => if o then insertEdge g a b else insertEdge g b a) g),
      ekey e = (min a b, max a b)) := by
  intro l
  induction l with
  | nil =>
    intro g hg ha hb hkeys
    exact ⟨hg, ha, hb, rfl, rfl, hkeys⟩
  | cons o os ih =>
    intro g hg ha hb hkeys
    rw [List.foldl_cons]
    have hba : b ≠ a := fun h => hab h.symm
    cases o with
    | true =>
      rw [if_pos rfl]
      have hg2 : GraphInv (insertEdge g a b) := GraphInv_insertEdge hg a b
      have ha2 : a ∈ (insertEdge g a b).verts := by
        rw [insertEdge_verts ha hb]
        exact ha
      have hb2 : b ∈ (insertEdge g a b).verts := by
        rw [insertEdge_verts ha hb]
        exact hb
      have hkeys2 : ∀ e ∈ edgeObjects (insertEdge g a b),
          ekey e = (min a b, max a b) := by
        intro e he
        rcases (insertEdge_objs hg ha hb e).mp he with h | h
        · exact hkeys e h
        · rw [h]
          rfl
      obtain ⟨r1, r2, r3, r4, r5, r6⟩ := ih (insertEdge g a b) hg2 ha2 hb2 hkeys2
      refine ⟨r1, r2, r3, ?_, ?_, r6⟩
      · rw [r4, insertEdge_adjGet hg ha hb a]
        simp [hab]
        omega
      · rw [r5, insertEdge_adjGet hg ha hb b]
        simp [hba]
        omega
    | false =>
      rw [if_neg (by simp)]
      have hg2 : GraphInv (insertEdge g b a) := GraphInv_insertEdge hg b a
      have ha2 : a ∈ (insertEdge g b a).verts := by
        rw [insertEdge_verts hb ha]
        exact ha
      have hb2 : b ∈ (insertEdge g b a).verts := by
        rw [insertEdge_verts hb ha]
        exact hb
      have hkeys2 : ∀ e ∈ edgeObjects (insertEdge g b a),
          ekey e = (min a b, max a b) := by
        intro e he
        rcases (insertEdge_objs hg hb ha e).mp he with h | h
        · exact hkeys e h
        · rw [h]
          show (min b a, max b a) = (min a b, max a b)
          rw [Nat.min_comm, Nat.max_comm]
      obtain ⟨r1, r2, r3, r4, r5, r6⟩ := ih (insertEdge g b a) hg2 ha2 hb2 hkeys2
      refine ⟨r1, r2, r3, ?_, ?_, r6⟩
      · rw [r4, insertEdge_adjGet hg hb ha a]
        simp [hab]
        omega
      · rw [r5, insertEdge_adjGet hg hb ha b]
        simp [hba]
        omega

theorem insertEdge_empty (a b : Nat) (hab : a ≠ b) :
    insertEdge emptyGraph a b =
      ⟨[a, b], [(a, [⟨0, a, b⟩]), (b, [⟨0, a, b⟩])], 1⟩ := by
  have hba : b ≠ a := fun h => hab h.symm
  unfold insertEdge insertVertex emptyGraph adjApp
  simp [hab, hba]

theorem buildPar_base (a b : Nat) (hab : a ≠ b) (o : Bool) :
    GraphInv (if o then insertEdge emptyGraph a b
      else insertEdge emptyGraph b a) ∧
    a ∈ (if o then insertEdge emptyGraph a b
      else insertEdge emptyGraph b a).verts ∧
    b ∈ (if o then insertEdge emptyGraph a b
      else insertEdge emptyGraph b a).verts ∧
    (adjGet (if o then insertEdge emptyGraph a b
      else insertEdge emptyGraph b a) a).length = 1 ∧
    (adjGet (if o then insertEdge emptyGraph a b
      else insertEdge emptyGraph b a) b).length = 1 ∧
    (∀ e ∈ edgeObjects (if o then insertEdge emptyGraph a b
      else insertEdge emptyGraph b a), ekey e = (min a b, max a b)) := by
  have hba : b ≠ a := fun h => hab h.symm
  cases o with
  | true =>
    rw [if_pos rfl]
    refine ⟨GraphInv_insertEdge GraphInv_empty a b, ?_, ?_, ?_, ?_, ?_⟩
    · rw [insertEdge_empty a b hab]
      simp
    · rw [insertEdge_empty a b hab]
      simp
    · rw [insertEdge_empty a b hab]
      simp [adjGet, aget, hba]
    · rw [insertEdge_empty a b hab]
      simp [adjGet, aget, hab, hba]
    · intro e he
      rw [insertEdge_empty a b hab] at he
      simp [edgeObjects] at he
      rw [he]
      rfl
  | false =>
    rw [if_neg (by simp)]
    refine ⟨GraphInv_insertEdge GraphInv_empty b a, ?_, ?_, ?_, ?_, ?_⟩
    · rw [insertEdge_empty b a hba]
      simp
    · rw [insertEdge_empty b a hba]
      simp
    · rw [insertEdge_empty b a hba]
      simp [adjGet, aget, hab, hba]
    · rw [insertEdge_empty b a hba]
      simp [adjGet, aget, hab]
    · intro e he
      rw [insertEdge_empty b a hba] at he
      simp [edgeObjects] at he
      rw [he]
      show (min b a, max b a) = (min a b, max a b)
      rw [Nat.min_comm, Nat.max_comm]

/-- C10 counterexample: with `a = b = 0` and a single `insert_edge(0, 0)`
call the endpoint's incident list holds 2 entries, not k = 1 as the claim
states for every pair of elements. -/
theorem parallel_self_loop_entries :
    (adjGet (buildPar 0 0 [true]) 0).length = 2 ∧
    ¬ (adjGet (buildPar 0 0 [true]) 0).length = 1 := by decide

/-- C10 amended: for two DISTINCT elements `a ≠ b`, after `k ≥ 1` calls of
`insert_edge(a, b)` or `insert_edge(b, a)` in any mix, each endpoint's
incident list holds exactly `k` edge entries, `edges()` holds exactly one
edge for the pair, all the parallel edge objects are Python-value-equal
(`frozenset` equality) with one common canonical key, and consequently
they share a single entry in the BFS edge-label store.  (For `a = b` each
call appends two entries to the single endpoint's list, so the list holds
`2 k` entries — see the counterexample.) -/
theorem parallel_edges_collapse (a b : Nat) (hab : a ≠ b) (ops : List Bool)
    (hne : ops ≠ []) :
    (adjGet (buildPar a b ops) a).length = ops.length ∧
    (adjGet (buildPar a b ops) b).length = ops.length ∧
    (edges (buildPar a b ops)).length = 1 ∧
    (∀ e1 ∈ edgeObjects (buildPar a b ops),
      ∀ e2 ∈ edgeObjects (buildPar a b ops),
      pyEq e1 e2 ∧ ekey e1 = ekey e2) ∧
    (∀ (vl : Nat → VLabel) (el : Nat × Nat → ELabel),
      ∀ e1 ∈ edgeObjects (buildPar a b ops),
      ∀ e2 ∈ edgeObjects (buildPar a b ops),
      (bfsRun (buildPar a b ops) vl el).edge_labels (ekey e1) =
        (bfsRun (buildPar a b ops) vl el).edge_labels (ekey e2)) := by
  cases ops with
  | nil => exact absurd rfl hne
  | cons o rest =>
    obtain ⟨hg1, ha1, hb1, hla1, hlb1, hk1⟩ := buildPar_base a b hab o
    have hfold : buildPar a b (o :: rest) = rest.foldl
        (fun g o => if o then insertEdge g a b else insertEdge g b a)
        (if o then insertEdge emptyGraph a b else insertEdge emptyGraph b a) := by
      unfold buildPar
      rw [List.foldl_cons]
    obtain ⟨rg, ra, rb, rla, rlb, rk⟩ := buildPar_step a b hab rest
      (if o then insertEdge emptyGraph a b else insertEdge emptyGraph b a)
      hg1 ha1 hb1 hk1
    rw [hfold]
    have hlen1 : (adjGet (rest.foldl
        (fun g o => if o then insertEdge g a b else insertEdge g b a)
        (if o then insertEdge emptyGraph a b
          else insertEdge emptyGraph b a)) a).length = (o :: rest).length := by
      rw [rla, hla1]
      simp [Nat.add_comm]
    have hlen2 : (adjGet (rest.foldl
        (fun g o => if o then insertEdge g a b else insertEdge g b a)
        (if o then insertEdge emptyGraph a b
          else insertEdge emptyGraph b a)) b).length = (o :: rest).length := by
      rw [rlb, hlb1]
      simp [Nat.add_comm]
    refine ⟨hlen1, hlen2, ?_, ?_, ?_⟩
    · show (dedupByKey (edgeObjects _) []).length = 1
      apply dedupByKey_const rk
      intro hnil
      have h0 : (adjGet (rest.foldl
          (fun g o => if o then insertEdge g a b else insertEdge g b a)
          (if o then insertEdge emptyGraph a b
            else insertEdge emptyGraph b a)) a).length = 0 := by
        rw [List.length_eq_zero]
        cases hget : adjGet (rest.foldl
            (fun g o => if o then insertEdge g a b else insertEdge g b a)
            (if o then insertEdge emptyGraph a b
              else insertEdge emptyGraph b a)) a with
        | nil => rfl
        | cons x xs =>
          exfalso
          have hx : x ∈ adjGet (rest.foldl
              (fun g o => if o then insertEdge g a b else insertEdge g b a)
              (if o then insertEdge emptyGraph a b
                else insertEdge emptyGraph b a)) a := by
            rw [hget]
            exact List.mem_cons_self _ _
          have := adjGet_sub hx
          rw [hnil] at this
          cases this
      rw [hlen1] at h0
      cases h0
    · intro e1 he1 e2 he2
      have h1 := rk e1 he1
      have h2 := rk e2 he2
      have hkk : ekey e1 = ekey e2 := by rw [h1, h2]
      exact ⟨pyEq_of_ekey hkk, hkk⟩
    · intro vl el e1 he1 e2 he2
      have h1 := rk e1 he1
      have h2 := rk e2 he2
      rw [h1, h2]

/-- Witness for the amended C10 with a = 1, b = 2 and three parallel
insertions. -/
theorem parallel_edges_collapse_witness :
    ((1 : Nat) ≠ 2 ∧ ([true, false, true] : List Bool) ≠ []) ∧
    ((adjGet (buildPar 1 2 [true, false, true]) 1).length = 3 ∧
     (adjGet (buildPar 1 2 [true, false, true]) 2).length = 3 ∧
     (edges (buildPar 1 2 [true, false, true])).length = 1 ∧
     (∀ e1 ∈ edgeObjects (buildPar 1 2 [true, false, true]),
       ∀ e2 ∈ edgeObjects (buildPar 1 2 [true, false, true]),
       pyEq e1 e2 ∧ ekey e1 = ekey e2) ∧
     (∀ (vl : Nat → VLabel) (el : Nat × Nat → ELabel),
       ∀ e1 ∈ edgeObjects (buildPar 1 2 [true, false, true]),
       ∀ e2 ∈ edgeObjects (buildPar 1 2 [true, false, true]),
       (bfsRun (buildPar 1 2 [true, false, true]) vl el).edge_labels (ekey e1) =
         (bfsRun (buildPar 1 2 [true, false, true]) vl el).edge_labels
           (ekey e2))) :=
  ⟨⟨by decide, by decide⟩,
    parallel_edges_collapse 1 2 (by decide) [true, false, true] (by decide)⟩

/-! ### Label-store independence of a run (simulation up to `LabAgree`) -/

theorem scanEdge_agree {g : Graph} (hWF : WF g) {v : Nat} {s t : BFSState}
    (hag : LabAgree g s t) {e : Edge} (he : e ∈ adjGet g v) :
    LabAgree g (scanEdge v s e) (scanEdge v t e) := by
  simp only [LabAgree] at hag
  obtain ⟨hq, hpo, hpu, hev, hse, hvl, hel⟩ := hag
  have heo : e ∈ edgeObjects g := adjGet_sub he
  have hwv : opposite v e ∈ g.verts := by
    rcases opposite_ends v e with h | h
    · rw [h]
      exact (hWF.ends_mem e heo).1
    · rw [h]
      exact (hWF.ends_mem e heo).2
  have hcond1 : s.vertex_labels (opposite v e) = t.vertex_labels (opposite v e) :=
    hvl _ hwv
  have hcond2 : s.edge_labels (ekey e) = t.edge_labels (ekey e) := hel e heo
  unfold scanEdge
  by_cases h1 : t.vertex_labels (opposite v e) = VLabel.unexplored
  · rw [if_pos (by rw [hcond1]; exact h1), if_pos h1]
    simp only [LabAgree, discStep]
    refine ⟨by rw [hq], hpo, by rw [hpu], by rw [hev], hse, ?_, ?_⟩
    · intro u hu
      by_cases h3 : u = opposite v e
      · simp [updV, h3]
      · simp [updV, h3]
        exact hvl u hu
    · intro e2 he2
      by_cases h3 : ekey e2 = ekey e
      · simp [updE, h3]
      · simp [updE, h3]
        exact hel e2 he2
  · rw [if_neg (by rw [hcond1]; exact h1), if_neg h1]
    by_cases h2 : t.edge_labels (ekey e) = ELabel.unexplored
    · rw [if_pos (by rw [hcond2]; exact h2), if_pos h2]
      simp only [LabAgree, crossStep]
      refine ⟨hq, hpo, hpu, by rw [hev], hse, hvl, ?_⟩
      intro e2 he2
      by_cases h3 : ekey e2 = ekey e
      · simp [updE, h3]
      · simp [updE, h3]
        exact hel e2 he2
    · rw [if_neg (by rw [hcond2]; exact h2), if_neg h2]
      simp only [LabAgree]
      exact ⟨hq, hpo, hpu, hev, hse, hvl, hel⟩

theorem scanFold_agree {g : Graph} (hWF : WF g) (v : Nat) :
    ∀ (es : List Edge), (∀ e ∈ es, e ∈ adjGet g v) →
    ∀ (s t : BFSState), LabAgree g s t →
    LabAgree g (es.foldl (scanEdge v) s) (es.foldl (scanEdge v) t) := by
  intro es
  induction es with
  | nil =>
    intro _ s t hag
    exact hag
  | cons e es ih =>
    intro hsub s t hag
    rw [List.foldl_cons, List.foldl_cons]
    exact ih (fun e2 he2 => hsub e2 (List.mem_cons_of_mem _ he2)) _ _
      (scanEdge_agree hWF hag (hsub e (List.mem_cons_self e es)))

theorem bfsLoop_agree {g : Graph} (hWF : WF g) :
    ∀ (fuel : Nat) (s t : BFSState), LabAgree g s t →
    LabAgree g (bfsLoop g fuel s) (bfsLoop g fuel t) := by
  intro fuel
  induction fuel with
  | zero =>
    intro s t hag
    exact hag
  | succ n ih =>
    intro s t hag
    have hag2 := hag
    simp only [LabAgree] at hag2
    obtain ⟨hq, hpo, hpu, hev, hse, hvl, hel⟩ := hag2
    rw [bfsLoop, bfsLoop]
    cases hqs : s.queue with
    | nil =>
      have hqt : t.queue = [] := by rw [← hq, hqs]
      rw [hqt]
      exact hag
    | cons v rest =>
      have hqt : t.queue = v :: rest := by rw [← hq, hqs]
      rw [hqt]
      apply ih
      apply scanFold_agree hWF v (adjGet g v) (fun e2 he2 => he2)
      exact ⟨rfl, congrArg (fun l => l ++ [v]) hpo, hpu, hev, hse, hvl, hel⟩

theorem bfsComponent_agree {g : Graph} (hWF : WF g) {s t : BFSState}
    (hag : LabAgree g s t) (x : Nat) :
    LabAgree g (bfsComponent g s x) (bfsComponent g t x) := by
  simp only [LabAgree] at hag
  obtain ⟨hq, hpo, hpu, hev, hse, hvl, hel⟩ := hag
  apply bfsLoop_agree hWF
  refine ⟨rfl, hpo, congrArg (fun l => l ++ [x]) hpu, hev, hse, ?_, hel⟩
  intro u hu
  show updV s.vertex_labels x VLabel.visited u =
    updV t.vertex_labels x VLabel.visited u
  by_cases h : u = x
  · simp [updV, h]
  · simp [updV, h]
    exact hvl u hu

theorem runFold_agree {g : Graph} (hWF : WF g) :
    ∀ (l : List Nat), (∀ v ∈ l, v ∈ g.verts) →
    ∀ (s t : BFSState), LabAgree g s t →
    LabAgree g
      (l.foldl (fun s v => if s.vertex_labels v = VLabel.unexplored
        then bfsComponent g { s with seeds := s.seeds ++ [v] } v else s) s)
      (l.foldl (fun s v => if s.vertex_labels v = VLabel.unexplored
        then bfsComponent g { s with seeds := s.seeds ++ [v] } v else s) t) := by
  intro l
  induction l with
  | nil =>
    intro _ s t hag
    exact hag
  | cons v vs ih =>
    intro hsub s t hag
    simp only [List.foldl_cons]
    apply ih (fun u hu => hsub u (List.mem_cons_of_mem _ hu))
    have hv : v ∈ g.verts := hsub v (List.mem_cons_self v vs)
    have hag2 := hag
    simp only [LabAgree] at hag2
    obtain ⟨hq, hpo, hpu, hev, hse, hvl, hel⟩ := hag2
    have hcond : s.vertex_labels v = t.vertex_labels v := hvl v hv
    by_cases h : t.vertex_labels v = VLabel.unexplored
    · rw [if_pos (by rw [hcond]; exact h), if_pos h]
      apply bfsComponent_agree hWF
      simp only [LabAgree]
      exact ⟨hq, hpo, hpu, hev, by rw [hse], hvl, hel⟩
    · rw [if_neg (by rw [hcond]; exact h), if_neg h]
      exact hag

theorem bfsRun_agree {g : Graph} (hWF : WF g) (vl vl' : Nat → VLabel)
    (el el' : Nat × Nat → ELabel) :
    LabAgree g (bfsRun g vl el) (bfsRun g vl' el') := by
  unfold bfsRun
  apply runFold_agree hWF g.verts (fun v hv => hv)
  exact ⟨rfl, rfl, rfl, rfl, rfl,
    fun v hv => by
      show initV g vl v = initV g vl' v
      rw [initV_mem vl hv, initV_mem vl' hv],
    fun e he => by
      show initE g el (ekey e) = initE g el' (ekey e)
      rw [initE_mem el he, initE_mem el' he]⟩

/-- C8 counterexample: after a completed run on the two-vertex graph `g12`
every vertex label is VISITED, yet a second call started from exactly the
first call's label stores still seeds a fresh component at vertex 1 and
pops both vertices again — `bfs` reinitialises the stores implicitly at
the start of every call (src/BFS.py lines 133-136), contrary to the
claim's "the Label Store is not reinitialized implicitly". -/
theorem bfs_second_run_restarts :
    (∀ v ∈ g12.verts,
      (bfsRun g12 vl0 el0).vertex_labels v = VLabel.visited) ∧
    (bfsRun g12 (bfsRun g12 vl0 el0).vertex_labels
      (bfsRun g12 vl0 el0).edge_labels).seeds = [1] ∧
    (bfsRun g12 (bfsRun g12 vl0 el0).vertex_labels
      (bfsRun g12 vl0 el0).edge_labels).pops = [1, 2] := by decide

/-- C8 amended: `bfs` DOES reinitialise both label stores at the start of
every call (the two loops at src/BFS.py lines 133-136 relabel every vertex
and every edge UNEXPLORED before traversal), so no fresh driver or
explicit reset is needed: a run's pops, pushes, seeds, hook events and
final labels on the graph's vertices and edges are completely independent
of the label-store contents the driver holds when `bfs` is called. -/
theorem bfs_reinitializes (g : Graph) (hWF : WF g) (vl vl' : Nat → VLabel)
    (el el' : Nat × Nat → ELabel) :
    (bfsRun g vl el).pops = (bfsRun g vl' el').pops ∧
    (bfsRun g vl el).pushes = (bfsRun g vl' el').pushes ∧
    (bfsRun g vl el).seeds = (bfsRun g vl' el').seeds ∧
    (bfsRun g vl el).events = (bfsRun g vl' el').events ∧
    (∀ v ∈ g.verts, (bfsRun g vl el).vertex_labels v =
      (bfsRun g vl' el').vertex_labels v) ∧
    (∀ e ∈ edgeObjects g, (bfsRun g vl el).edge_labels (ekey e) =
      (bfsRun g vl' el').edge_labels (ekey e)) := by
  have h := bfsRun_agree hWF vl vl' el el'
  simp only [LabAgree] at h
  exact ⟨h.2.1, h.2.2.1, h.2.2.2.2.1, h.2.2.2.1, h.2.2.2.2.2.1,
    h.2.2.2.2.2.2⟩

/-- Witness for the amended C8 on `g12`: a fresh driver against one whose
stores still hold all-visited / all-cross contents. -/
theorem bfs_reinitializes_witness :
    WF g12 ∧
    ((bfsRun g12 vl0 el0).pops =
      (bfsRun g12 (fun _ => VLabel.visited) (fun _ => ELabel.cross)).pops ∧
    (bfsRun g12 vl0 el0).pushes =
      (bfsRun g12 (fun _ => VLabel.visited) (fun _ => ELabel.cross)).pushes ∧
    (bfsRun g12 vl0 el0).seeds =
      (bfsRun g12 (fun _ => VLabel.visited) (fun _ => ELabel.cross)).seeds ∧
    (bfsRun g12 vl0 el0).events =
      (bfsRun g12 (fun _ => VLabel.visited) (fun _ => ELabel.cross)).events ∧
    (∀ v ∈ g12.verts, (bfsRun g12 vl0 el0).vertex_labels v =
      (bfsRun g12 (fun _ => VLabel.visited)
        (fun _ => ELabel.cross)).vertex_labels v) ∧
    (∀ e ∈ edgeObjects g12, (bfsRun g12 vl0 el0).edge_labels (ekey e) =
      (bfsRun g12 (fun _ => VLabel.visited)
        (fun _ => ELabel.cross)).edge_labels (ekey e))) :=
  ⟨by decide, bfs_reinitializes g12 (by decide) vl0
    (fun _ => VLabel.visited) el0 (fun _ => ELabel.cross)⟩

end BFS
